import Mathlib

/-!
Verification development for the FAAAQueue repository (src/src/lib.rs).

The source implements a lock-free multi-producer multi-consumer queue built
from linked fixed-capacity segments (Node) of BUFFER_SIZE slots.  Producers
reserve slot indices with fetch-and-add on enqueue_index and install items
with a compare-and-swap from null; consumers reserve indices with
fetch-and-add on dequeue_index and swap the slot with the Taken sentinel
(address 1).  Full segments are extended by linking a new seeded segment;
drained segments are retired after the head pointer is advanced.

Two embeddings are given.

The first is a sequential embedding: each call to enqueue or dequeue is
executed atomically, as a function from queue states to queue states.  A
queue state holds the chain of segments reachable from the head pointer
(retired segments are removed) together with the position of the tail
pointer inside that chain.  Loops in the source become well-founded
recursions.  The state space deliberately admits states with unpublished
reserved slots (holes), so that the hole-skipping path of dequeue is
exercised.

The second is a concurrent small-step embedding: segments live in an
append-only arena, each thread carries a program counter with its local
variables, and every atomic instruction of the source (load, fetch-and-add,
compare-and-swap, swap) is one transition of an inductive step relation.
Invariants of the slot state machine and of the segment chain are proved
over this relation.
-/

namespace FAAA

variable {α : Type}

/-- Capacity of one segment, as in the source: const BUFFER_SIZE: usize = 1024. -/
def BUFFER_SIZE : Nat := 1024

/-- Value of one slot cell (one AtomicPtr of the array field).  In the source a
slot holds either null (empty), the address of a live item (occupied), or the
reserved sentinel address 1 written by a consumer (taken). -/
inductive Slot (α : Type) where
  | empty : Slot α
  | occupied (a : α) : Slot α
  | taken : Slot α
deriving DecidableEq

/-- Test mirroring item_ptr.is_null() on a slot value: only the empty slot is
the null pointer. -/
def Slot.isNull : Slot α → Bool
  | Slot.empty => true
  | _ => false

/-- Interpretation of a slot as the item it owns, if any. -/
def Slot.curItem : Slot α → Option α
  | Slot.occupied a => some a
  | _ => none

/-- One segment (struct Node in the source).  The next link is not a field
here: in the sequential embedding the chain of segments is kept as a list and
the link of a segment is the following list entry, with a null link for the
last entry. -/
structure Node (α : Type) where
  enqueue_index : Nat
  dequeue_index : Nat
  array : List (Slot α)
deriving DecidableEq

/-- Node::new(data_ptr): seeded construction, cursor starts at 1 and slot 0
holds the item that triggered the chain extension. -/
def Node.new (a : α) : Node α :=
  { enqueue_index := 1
    dequeue_index := 0
    array := (List.replicate BUFFER_SIZE (Slot.empty)).set 0 (Slot.occupied a) }

/-- Node::empty(): both cursors start at 0 and every slot is null. -/
def Node.emptyNode : Node α :=
  { enqueue_index := 0
    dequeue_index := 0
    array := List.replicate BUFFER_SIZE (Slot.empty) }

/-- State of the per-thread hazard guard supplied by the caller.  safe_load
sets the protection, hp.reset_protection() clears it. -/
structure HazardPointer where
  protecting : Bool
deriving DecidableEq

/-- Queue state for the sequential embedding.  chain lists the segments from
the one referenced by the head pointer to the end of the linked list, in link
order; tailIdx is the position inside chain of the segment referenced by the
tail pointer. -/
structure FAAAQueue (α : Type) where
  chain : List (Node α)
  tailIdx : Nat
deriving DecidableEq

/-- FAAAQueue::new(): a single empty sentinel segment, head = tail. -/
def FAAAQueue.new : FAAAQueue α :=
  { chain := [Node.emptyNode], tailIdx := 0 }

/-- Termination measure for the enqueue retry loop: the loop either advances
the tail pointer toward the end of the chain, appends and returns, or raises
the enqueue cursor of the tail segment (which is capped by the full test). -/
def enqMeasure (q : FAAAQueue α) : Nat :=
  (q.chain.length - q.tailIdx) * (BUFFER_SIZE + 2) +
    (BUFFER_SIZE + 1 -
      min (q.chain.getD q.tailIdx Node.emptyNode).enqueue_index (BUFFER_SIZE + 1))

/-- Retry loop of FAAAQueue::enqueue (source lines 50 to 95), run to
completion with this call as the only active thread.  Every atomic access of
the source is played in order on the state:
the guarded load of the tail pointer, the fetch-and-add on enqueue_index,
then either the in-bounds compare-and-swap of the slot from null, or the full
path that re-checks the tail pointer, reads the next link, and either links a
freshly seeded segment (CAS of the null link, then best-effort CAS of the
tail pointer) or helps advance the tail pointer and retries.  Since no other
thread runs in between, the re-check of the tail pointer never fires, and the
two CAS operations of the linking path succeed.  The returned HazardPointer
is the guard state at return. -/
def enqueueLoop (q : FAAAQueue α) (item : α) : FAAAQueue α × HazardPointer :=
  -- let ltail = self.tail.safe_load(hp).unwrap()
  let ltail := q.chain.getD q.tailIdx Node.emptyNode
  -- let idx = ltail.enqueue_index.fetch_add(1, SeqCst)
  let idx := ltail.enqueue_index
  let q1 : FAAAQueue α :=
    { q with chain :=
        q.chain.set q.tailIdx ({ ltail with enqueue_index := ltail.enqueue_index + 1 }) }
  if hfull : BUFFER_SIZE - 1 < idx then
    -- this node is full; the re-check (ltail != self.tail.load_ptr()) cannot
    -- fire here because nothing ran between the load and the re-check
    if hnext : q.tailIdx + 1 < q.chain.length then
      -- lnext is non-null: best-effort CAS of the tail pointer from ltail to
      -- lnext (it succeeds here), then continue
      enqueueLoop { q1 with tailIdx := q.tailIdx + 1 } item
    else
      -- lnext is null: allocate Node::new(item_ptr), CAS it into ltail.next
      -- (succeeds, the link is still null), CAS the tail pointer to the new
      -- segment (succeeds), reset the guard protection and return
      ({ chain := q1.chain ++ [Node.new item], tailIdx := q1.chain.length },
        { protecting := false })
  else
    -- compare-and-swap of array[idx] from null to item_ptr: it succeeds if
    -- and only if the current value is null; the getD default covers only
    -- indices out of bounds, which cannot arise since idx <= BUFFER_SIZE - 1
    -- and the array has BUFFER_SIZE entries
    match hcas : ltail.array.getD idx (Slot.empty) with
    | Slot.empty =>
      -- CAS succeeded: the item is installed, the guard protection is reset
      ({ q1 with chain :=
          (q1.chain.set q.tailIdx
            ({ ltail with
                enqueue_index := ltail.enqueue_index + 1
                array := ltail.array.set idx (Slot.occupied item) })) },
        { protecting := false })
    | Slot.occupied _ =>
      -- CAS failed (defensive case in the source): retry the loop
      enqueueLoop q1 item
    | Slot.taken =>
      -- CAS failed (the slot was closed by a consumer): retry the loop
      enqueueLoop q1 item
termination_by enqMeasure q
decreasing_by
  · -- helping case: the tail pointer moved one segment toward the end
    unfold_let q1
    simp only [enqMeasure, List.length_set]
    have key : ∀ L t s1 s2 : Nat, t + 1 < L →
        (L - (t + 1)) * (BUFFER_SIZE + 2) + (BUFFER_SIZE + 1 - s1) <
        (L - t) * (BUFFER_SIZE + 2) + (BUFFER_SIZE + 1 - s2) := by
      intro L t s1 s2 h1
      simp only [BUFFER_SIZE]
      omega
    exact key _ _ _ _ hnext
  · -- failed CAS (prior value occupied): the enqueue cursor strictly increased
    unfold_let q1 idx ltail at hcas hfull ⊢
    have hbound : q.tailIdx < q.chain.length := by
      by_contra hge
      rw [List.getD_eq_default _ _ (Nat.le_of_not_lt hge)] at hcas
      simp only [Node.emptyNode] at hcas
      rcases Nat.lt_or_ge (0 : Nat) BUFFER_SIZE with hlt | hge2
      · rw [List.getD_eq_getElem _ _ (by simpa using hlt), List.getElem_replicate] at hcas
        exact Slot.noConfusion hcas
      · exact absurd hge2 (by simp [BUFFER_SIZE])
    simp only [enqMeasure, List.length_set]
    have hidx : (q.chain.set q.tailIdx
        ({ q.chain.getD q.tailIdx Node.emptyNode with
            enqueue_index := (q.chain.getD q.tailIdx Node.emptyNode).enqueue_index + 1 })).getD
        q.tailIdx Node.emptyNode =
        { q.chain.getD q.tailIdx Node.emptyNode with
            enqueue_index := (q.chain.getD q.tailIdx Node.emptyNode).enqueue_index + 1 } := by
      rw [List.getD_eq_getElem _ _ (by simpa using hbound)]
      simp [List.getElem_set]
    rw [hidx]
    simp only [BUFFER_SIZE] at hfull ⊢
    omega
  · -- failed CAS (prior value taken): the enqueue cursor strictly increased
    unfold_let q1 idx ltail at hcas hfull ⊢
    have hbound : q.tailIdx < q.chain.length := by
      by_contra hge
      rw [List.getD_eq_default _ _ (Nat.le_of_not_lt hge)] at hcas
      simp only [Node.emptyNode] at hcas
      rcases Nat.lt_or_ge (0 : Nat) BUFFER_SIZE with hlt | hge2
      · rw [List.getD_eq_getElem _ _ (by simpa using hlt), List.getElem_replicate] at hcas
        exact Slot.noConfusion hcas
      · exact absurd hge2 (by simp [BUFFER_SIZE])
    simp only [enqMeasure, List.length_set]
    have hidx : (q.chain.set q.tailIdx
        ({ q.chain.getD q.tailIdx Node.emptyNode with
            enqueue_index := (q.chain.getD q.tailIdx Node.emptyNode).enqueue_index + 1 })).getD
        q.tailIdx Node.emptyNode =
        { q.chain.getD q.tailIdx Node.emptyNode with
            enqueue_index := (q.chain.getD q.tailIdx Node.emptyNode).enqueue_index + 1 } := by
      rw [List.getD_eq_getElem _ _ (by simpa using hbound)]
      simp [List.getElem_set]
    rw [hidx]
    simp only [BUFFER_SIZE] at hfull ⊢
    omega

/-- FAAAQueue::enqueue.  The incoming guard state is irrelevant because the
first action of the loop, the guarded load, overwrites the protection. -/
def enqueue (q : FAAAQueue α) (item : α) (_hp : HazardPointer) :
    FAAAQueue α × HazardPointer :=
  enqueueLoop q item

/-- Termination measure for the dequeue retry loop: the loop either removes
the head segment from the chain or raises the dequeue cursor of the head
segment (which is capped by the drained test). -/
def deqMeasure (q : FAAAQueue α) : Nat :=
  q.chain.length * (BUFFER_SIZE + 2) +
    (BUFFER_SIZE + 1 -
      min (q.chain.getD 0 Node.emptyNode).dequeue_index (BUFFER_SIZE + 1))

/-- Retry loop of FAAAQueue::dequeue (source lines 98 to 128) together with
the return paths (lines 129 to 130), run to completion with this call as the
only active thread.  The emptiness test reads the two cursors and the next
link of the head segment; if it fails, a slot index is reserved by
fetch-and-add on dequeue_index.  An out-of-bounds index drains the segment:
either the next link is null and the loop exits empty, or the head pointer is
advanced by CAS (it succeeds here) and the displaced segment is retired to
the hazard domain.  An in-bounds index is swapped with the Taken sentinel;
a null prior value is a hole and the loop retries, a non-null prior value is
reclaimed and returned.  The returned HazardPointer is the guard state at
return: the empty return path runs hp.reset_protection(), while the
item return path of the source returns without resetting the protection. -/
def dequeueLoop (q : FAAAQueue α) : FAAAQueue α × Option α × HazardPointer :=
  -- let lhead = self.head.safe_load(hp).unwrap()
  let lhead := q.chain.getD 0 Node.emptyNode
  if hchk : lhead.enqueue_index ≤ lhead.dequeue_index ∧ q.chain.length ≤ 1 then
    -- dequeue_index >= enqueue_index and the next link is null: break out of
    -- the loop, reset the guard protection, return None
    (q, none, { protecting := false })
  else
    -- let idx = lhead.dequeue_index.fetch_add(1, SeqCst)
    let idx := lhead.dequeue_index
    let q1 : FAAAQueue α :=
      { q with chain := q.chain.set 0 ({ lhead with dequeue_index := lhead.dequeue_index + 1 }) }
    if hfull : BUFFER_SIZE - 1 < idx then
      -- node has been drained
      if hnext : q.chain.length ≤ 1 then
        -- lnext is null: break, reset the guard protection, return None
        (q1, none, { protecting := false })
      else
        -- CAS of the head pointer from lhead to lnext succeeds here; the old
        -- head segment is retired to the hazard domain and leaves the chain.
        -- Under WF the tail pointer sits on a later segment, so its position
        -- shifts down by one.
        dequeueLoop { chain := q1.chain.drop 1, tailIdx := q1.tailIdx - 1 }
    else
      -- let item_ptr = lhead.array[idx].swap(1 as ptr, SeqCst)
      match hswap : lhead.array.getD idx (Slot.empty) with
      | Slot.empty =>
          -- prior value was null: permanent hole, continue the loop
          dequeueLoop
            { q1 with chain :=
                (q1.chain.set 0
                  ({ lhead with
                      dequeue_index := lhead.dequeue_index + 1
                      array := lhead.array.set idx (Slot.taken) })) }
      | Slot.occupied a =>
          -- prior value was an item address: reclaim it and return Some.
          -- The source returns here WITHOUT hp.reset_protection(), so the
          -- guard is still protecting.
          ({ q1 with chain :=
              (q1.chain.set 0
                ({ lhead with
                    dequeue_index := lhead.dequeue_index + 1
                    array := lhead.array.set idx (Slot.taken) })) },
            some a, { protecting := true })
      | Slot.taken =>
          -- prior value was the sentinel address 1: the source would treat it
          -- as an item pointer and reclaim it, which is undefined behavior.
          -- This case is unreachable from well-formed states (the sentinel is
          -- only written at indices below dequeue_index, each reserved once);
          -- it is modelled as returning no item, with the guard left set as
          -- on the item path.
          ({ q1 with chain :=
              (q1.chain.set 0
                ({ lhead with
                    dequeue_index := lhead.dequeue_index + 1
                    array := lhead.array.set idx (Slot.taken) })) },
            none, { protecting := true })
termination_by deqMeasure q
decreasing_by
  · -- head advance: the chain got one segment shorter
    unfold_let q1
    simp only [deqMeasure, List.length_drop, List.length_set]
    have key : ∀ L s1 s2 : Nat, ¬ L ≤ 1 →
        (L - 1) * (BUFFER_SIZE + 2) + (BUFFER_SIZE + 1 - s1) <
        L * (BUFFER_SIZE + 2) + (BUFFER_SIZE + 1 - s2) := by
      intro L s1 s2 h1
      simp only [BUFFER_SIZE]
      omega
    exact key _ _ _ hnext
  · -- hole: the dequeue cursor of the head segment strictly increased
    have hne : 0 < q.chain.length := by
      by_contra hz
      have hnil : q.chain = [] := List.length_eq_zero.mp (by omega)
      apply hchk
      have hlv : lhead = Node.emptyNode := by
        show q.chain.getD 0 Node.emptyNode = Node.emptyNode
        rw [hnil, List.getD_nil]
      constructor
      · rw [hlv]
        simp [Node.emptyNode]
      · rw [hnil]
        simp
    unfold_let q1 idx lhead at hfull ⊢
    simp only [deqMeasure, List.length_set, List.set_set]
    have hidx : (q.chain.set 0
        ({ q.chain.getD 0 Node.emptyNode with
            dequeue_index := (q.chain.getD 0 Node.emptyNode).dequeue_index + 1
            array := (q.chain.getD 0 Node.emptyNode).array.set
              ((q.chain.getD 0 Node.emptyNode).dequeue_index) (Slot.taken) })).getD
        0 Node.emptyNode =
        { q.chain.getD 0 Node.emptyNode with
            dequeue_index := (q.chain.getD 0 Node.emptyNode).dequeue_index + 1
            array := (q.chain.getD 0 Node.emptyNode).array.set
              ((q.chain.getD 0 Node.emptyNode).dequeue_index) (Slot.taken) } := by
      rw [List.getD_eq_getElem _ _ (by simpa using hne)]
      simp [List.getElem_set]
    rw [hidx]
    simp only [BUFFER_SIZE] at hfull ⊢
    omega

/-- FAAAQueue::dequeue.  The incoming guard state is irrelevant because the
first action of the loop, the guarded load, overwrites the protection. -/
def dequeue (q : FAAAQueue α) (_hp : HazardPointer) :
    FAAAQueue α × Option α × HazardPointer :=
  dequeueLoop q

/-- Items held by one segment, in slot order. -/
def Node.items (n : Node α) : List α := n.array.filterMap Slot.curItem

/-- Abstraction of a queue state: the items held by the chain, oldest first. -/
def toList (q : FAAAQueue α) : List α := q.chain.flatMap Node.items

/-- Well-formedness of one segment, covering every state of a segment that a
single thread of control can be left with, including segments that hold
permanent holes: the array has BUFFER_SIZE entries; every slot at or above
the enqueue cursor is null (never reserved by a producer); every slot below
the dequeue cursor has been swapped to the sentinel by the consumer that
reserved it; and the sentinel only ever sits below the dequeue cursor.
Between the two cursors a slot may be occupied, or null (a hole left by a
producer that reserved the index and lost the slot to a consumer). -/
structure NodeWF (n : Node α) : Prop where
  len : n.array.length = BUFFER_SIZE
  pub : ∀ j, n.enqueue_index ≤ j → n.array.getD j (Slot.empty) = Slot.empty
  scanned : ∀ j, j < n.dequeue_index → j < n.array.length →
    n.array.getD j (Slot.empty) = Slot.taken
  taken_lt : ∀ j, n.array.getD j (Slot.empty) = Slot.taken →
    j < n.dequeue_index

/-- Well-formedness of a queue state of the sequential embedding: the chain is
never empty; the tail pointer references the last segment; every segment is
well formed; every segment other than the last was observed full by the
producer that linked its successor (its enqueue cursor passed
BUFFER_SIZE + 1); and only the head segment has ever been touched by
consumers. -/
structure WF (q : FAAAQueue α) : Prop where
  ne : q.chain ≠ []
  tl : q.tailIdx = q.chain.length - 1
  nodes : ∀ n ∈ q.chain, NodeWF n
  full : ∀ i, i + 1 < q.chain.length →
    BUFFER_SIZE + 1 ≤ (q.chain.getD i Node.emptyNode).enqueue_index
  deq0 : ∀ i, 0 < i → (q.chain.getD i Node.emptyNode).dequeue_index = 0

/-- One call performed by the single thread of the sequential embedding. -/
inductive Op (α : Type) where
  | enq (a : α)
  | deq

/-- Run a list of calls in order, collecting each dequeue result. -/
def runOps : FAAAQueue α → List (Op α) → FAAAQueue α × List (Option α)
  | q, [] => (q, [])
  | q, Op.enq a :: ops => runOps (enqueue q a { protecting := false }).1 ops
  | q, Op.deq :: ops =>
      let r := dequeue q { protecting := false }
      let rest := runOps r.1 ops
      (rest.1, r.2.1 :: rest.2)

/-- Values enqueued by a list of calls, in call order. -/
def enqueuedValues (ops : List (Op α)) : List α :=
  ops.filterMap (fun op => match op with | Op.enq a => some a | Op.deq => none)

/-- Dequeue repeatedly until a dequeue returns None (or the fuel runs out),
collecting the returned items. -/
def drainDeq : Nat → FAAAQueue α → List α × FAAAQueue α
  | 0, q => ([], q)
  | fuel + 1, q =>
      match dequeue q { protecting := false } with
      | (q2, some a, _) =>
          let r := drainDeq fuel q2
          (a :: r.1, r.2)
      | (q2, none, _) => ([], q2)

/-- The calls enqueuing the values 1 to N in order. -/
def enqOps (N : Nat) : List (Op Nat) := (List.range N).map (fun i => Op.enq (i + 1))

/-- N dequeue calls. -/
def deqOps (N : Nat) : List (Op α) := List.replicate N Op.deq

/-- Slot values freed as item boxes by the destructor from one segment: the
loop body frees every slot value that is not null (it only tests is_null).  -/
def Node.reclaimables (n : Node α) : List (Slot α) :=
  n.array.filter (fun s => ! s.isNull)

/-- While loop of the destructor (impl Drop, source lines 152 to 162): walk
the chain, and for each visited segment free every non-null slot value as an
item box, then free the segment.  Returns the freed slot values in order and
the number of segments freed by the loop. -/
def dropLoop : List (Node α) → List (Slot α) × Nat
  | [] => ([], 0)
  | n :: rest =>
      let r := dropLoop rest
      (n.reclaimables ++ r.1, r.2 + 1)

/-- Whole destructor (impl Drop for FAAAQueue, source lines 147 to 164):
Box::from_raw frees the head segment WITHOUT scanning its slots, then the
while loop starts from the next link of the head and visits every following
segment.  Result: the slot values freed as item boxes, and the total number
of segments freed (the head plus the ones the loop visited). -/
def dropQueue (q : FAAAQueue α) : List (Slot α) × Nat :=
  let r := dropLoop (q.chain.drop 1)
  (r.1, r.2 + 1)

/-- A fully drained segment: both cursors past the capacity and every slot
swapped to the sentinel.  This is the shape a head segment has after all of
its 1024 slots were dequeued and the drained branch ran once; used to build
concrete states for instantiating the theorems. -/
def Node.drained : Node α :=
  { enqueue_index := BUFFER_SIZE + 1
    dequeue_index := BUFFER_SIZE + 1
    array := List.replicate BUFFER_SIZE (Slot.taken) }

/-- A segment with a permanent hole: the producer cursor has passed slots 0
and 1, slot 1 holds the item 5, but slot 0 is still null (the producer that
reserved it has not published).  Used to instantiate the hole-tolerance
theorem on a concrete state. -/
def Node.holey : Node Nat :=
  { enqueue_index := 2
    dequeue_index := 0
    array := (List.replicate BUFFER_SIZE (Slot.empty)).set 1 (Slot.occupied 5) }

/-! Concurrent small-step embedding.  Segments live in an append-only arena:
an address is an index into the arena list, and freeing is deferred (a
retired or discarded segment keeps its arena entry, which is simply never
referenced again), so addresses are stable.  Each thread is a program
counter over the atomic instructions of enqueue and dequeue, carrying its
local variables.  Every constructor of the step relation is exactly one
atomic access of the source (or a pure local transfer bundled with the one
load it branches on). -/

/-- One segment of the concurrent embedding.  next is the arena address of
the successor, none for the null link. -/
structure CNode (α : Type) where
  enq : Nat
  deq : Nat
  next : Option Nat
  slots : List (Slot α)

/-- Node::new(data_ptr) in the concurrent embedding. -/
def CNode.seeded (a : α) : CNode α :=
  { enq := 1
    deq := 0
    next := none
    slots := (List.replicate BUFFER_SIZE (Slot.empty)).set 0 (Slot.occupied a) }

/-- Node::empty() in the concurrent embedding. -/
def CNode.emptyC : CNode α :=
  { enq := 0
    deq := 0
    next := none
    slots := List.replicate BUFFER_SIZE (Slot.empty) }

/-- Shared memory: the arena and the two shared segment pointers. -/
structure Shared (α : Type) where
  segs : List (CNode α)
  head : Nat
  tail : Nat

/-- Shared memory made by FAAAQueue::new(). -/
def Shared.init : Shared α := { segs := [CNode.emptyC], head := 0, tail := 0 }

/-- Dereference an arena address. -/
def Shared.node (s : Shared α) (i : Nat) : CNode α := s.segs.getD i CNode.emptyC

/-- Store to an arena address. -/
def Shared.setNode (s : Shared α) (i : Nat) (n : CNode α) : Shared α :=
  { s with segs := s.segs.set i n }

/-- Current value of slot j of the segment at arena address i. -/
def Shared.slot (s : Shared α) (i j : Nat) : Slot α :=
  (s.node i).slots.getD j (Slot.empty)

/-- Program counter of one thread, with its local variables.  The enq states
carry the item being enqueued; ltail, lhead, idx, nw, lnext are the local
variables of the source.  stopped holds the value the call returned. -/
inductive TState (α : Type) where
  | idle
  | enqLoad (a : α)
  | enqFaa (a : α) (ltail : Nat)
  | enqCas (a : α) (ltail idx : Nat)
  | enqChk (a : α) (ltail : Nat)
  | enqNext (a : α) (ltail : Nat)
  | enqLink (a : α) (ltail nw : Nat)
  | enqAdv (a : α) (ltail nw : Nat)
  | enqHelp (a : α) (ltail lnext : Nat)
  | deqLoad
  | deqChkD (lhead : Nat)
  | deqChkE (lhead ldeq : Nat)
  | deqChkN (lhead : Nat)
  | deqFaa (lhead : Nat)
  | deqSwap (lhead idx : Nat)
  | deqNext (lhead : Nat)
  | deqAdv (lhead lnext : Nat)
  | stopped (res : Option α)

/-- One atomic step of one thread: TStep pc sh pc2 sh2 relates the program
counter and the shared memory before and after the instruction.  Each
constructor mirrors one numbered access of src/src/lib.rs; a swap that would
observe the Taken sentinel (undefined behavior in the source, which would
reinterpret the sentinel address as an item box) has no transition. -/
inductive TStep : TState α → Shared α → TState α → Shared α → Prop where
  | start_enq (a : α) (sh : Shared α) :
      TStep TState.idle sh (TState.enqLoad a) sh
  | enq_load (a : α) (sh : Shared α) :
      TStep (TState.enqLoad a) sh (TState.enqFaa a sh.tail) sh
  | enq_faa_in (a : α) (lt : Nat) (sh : Shared α)
      (h : (sh.node lt).enq ≤ BUFFER_SIZE - 1) :
      TStep (TState.enqFaa a lt) sh (TState.enqCas a lt ((sh.node lt).enq))
        (sh.setNode lt { sh.node lt with enq := (sh.node lt).enq + 1 })
  | enq_faa_full (a : α) (lt : Nat) (sh : Shared α)
      (h : BUFFER_SIZE - 1 < (sh.node lt).enq) :
      TStep (TState.enqFaa a lt) sh (TState.enqChk a lt)
        (sh.setNode lt { sh.node lt with enq := (sh.node lt).enq + 1 })
  | enq_cas_ok (a : α) (lt idx : Nat) (sh : Shared α)
      (h : sh.slot lt idx = Slot.empty) :
      TStep (TState.enqCas a lt idx) sh (TState.stopped none)
        (sh.setNode lt
          { sh.node lt with slots := (sh.node lt).slots.set idx (Slot.occupied a) })
  | enq_cas_fail (a : α) (lt idx : Nat) (sh : Shared α)
      (h : sh.slot lt idx ≠ Slot.empty) :
      TStep (TState.enqCas a lt idx) sh (TState.enqLoad a) sh
  | enq_chk_moved (a : α) (lt : Nat) (sh : Shared α) (h : sh.tail ≠ lt) :
      TStep (TState.enqChk a lt) sh (TState.enqLoad a) sh
  | enq_chk_same (a : α) (lt : Nat) (sh : Shared α) (h : sh.tail = lt) :
      TStep (TState.enqChk a lt) sh (TState.enqNext a lt) sh
  | enq_next_null (a : α) (lt : Nat) (sh : Shared α)
      (h : (sh.node lt).next = none) :
      TStep (TState.enqNext a lt) sh (TState.enqLink a lt sh.segs.length)
        { sh with segs := sh.segs ++ [CNode.seeded a] }
  | enq_next_some (a : α) (lt nx : Nat) (sh : Shared α)
      (h : (sh.node lt).next = some nx) :
      TStep (TState.enqNext a lt) sh (TState.enqHelp a lt nx) sh
  | enq_link_ok (a : α) (lt nw : Nat) (sh : Shared α)
      (h : (sh.node lt).next = none) :
      TStep (TState.enqLink a lt nw) sh (TState.enqAdv a lt nw)
        (sh.setNode lt { sh.node lt with next := some nw })
  | enq_link_fail (a : α) (lt nw : Nat) (sh : Shared α)
      (h : (sh.node lt).next ≠ none) :
      TStep (TState.enqLink a lt nw) sh (TState.enqLoad a) sh
  | enq_adv_ok (a : α) (lt nw : Nat) (sh : Shared α) (h : sh.tail = lt) :
      TStep (TState.enqAdv a lt nw) sh (TState.stopped none)
        { sh with tail := nw }
  | enq_adv_fail (a : α) (lt nw : Nat) (sh : Shared α) (h : sh.tail ≠ lt) :
      TStep (TState.enqAdv a lt nw) sh (TState.stopped none) sh
  | enq_help_ok (a : α) (lt nx : Nat) (sh : Shared α) (h : sh.tail = lt) :
      TStep (TState.enqHelp a lt nx) sh (TState.enqLoad a)
        { sh with tail := nx }
  | enq_help_fail (a : α) (lt nx : Nat) (sh : Shared α) (h : sh.tail ≠ lt) :
      TStep (TState.enqHelp a lt nx) sh (TState.enqLoad a) sh
  | start_deq (sh : Shared α) :
      TStep TState.idle sh TState.deqLoad sh
  | deq_load (sh : Shared α) :
      TStep TState.deqLoad sh (TState.deqChkD sh.head) sh
  | deq_chkd (lh : Nat) (sh : Shared α) :
      TStep (TState.deqChkD lh) sh (TState.deqChkE lh ((sh.node lh).deq)) sh
  | deq_chke_lt (lh ld : Nat) (sh : Shared α) (h : ld < (sh.node lh).enq) :
      TStep (TState.deqChkE lh ld) sh (TState.deqFaa lh) sh
  | deq_chke_ge (lh ld : Nat) (sh : Shared α) (h : (sh.node lh).enq ≤ ld) :
      TStep (TState.deqChkE lh ld) sh (TState.deqChkN lh) sh
  | deq_chkn_null (lh : Nat) (sh : Shared α) (h : (sh.node lh).next = none) :
      TStep (TState.deqChkN lh) sh (TState.stopped none) sh
  | deq_chkn_some (lh nx : Nat) (sh : Shared α)
      (h : (sh.node lh).next = some nx) :
      TStep (TState.deqChkN lh) sh (TState.deqFaa lh) sh
  | deq_faa_in (lh : Nat) (sh : Shared α)
      (h : (sh.node lh).deq ≤ BUFFER_SIZE - 1) :
      TStep (TState.deqFaa lh) sh (TState.deqSwap lh ((sh.node lh).deq))
        (sh.setNode lh { sh.node lh with deq := (sh.node lh).deq + 1 })
  | deq_faa_drained (lh : Nat) (sh : Shared α)
      (h : BUFFER_SIZE - 1 < (sh.node lh).deq) :
      TStep (TState.deqFaa lh) sh (TState.deqNext lh)
        (sh.setNode lh { sh.node lh with deq := (sh.node lh).deq + 1 })
  | deq_swap_empty (lh idx : Nat) (sh : Shared α)
      (h : sh.slot lh idx = Slot.empty) :
      TStep (TState.deqSwap lh idx) sh TState.deqLoad
        (sh.setNode lh
          { sh.node lh with slots := (sh.node lh).slots.set idx (Slot.taken) })
  | deq_swap_occ (lh idx : Nat) (a : α) (sh : Shared α)
      (h : sh.slot lh idx = Slot.occupied a) :
      TStep (TState.deqSwap lh idx) sh (TState.stopped (some a))
        (sh.setNode lh
          { sh.node lh with slots := (sh.node lh).slots.set idx (Slot.taken) })
  | deq_next_null (lh : Nat) (sh : Shared α) (h : (sh.node lh).next = none) :
      TStep (TState.deqNext lh) sh (TState.stopped none) sh
  | deq_next_some (lh nx : Nat) (sh : Shared α)
      (h : (sh.node lh).next = some nx) :
      TStep (TState.deqNext lh) sh (TState.deqAdv lh nx) sh
  | deq_adv_ok (lh nx : Nat) (sh : Shared α) (h : sh.head = lh) :
      TStep (TState.deqAdv lh nx) sh TState.deqLoad { sh with head := nx }
  | deq_adv_fail (lh nx : Nat) (sh : Shared α) (h : sh.head ≠ lh) :
      TStep (TState.deqAdv lh nx) sh TState.deqLoad sh
  | finish (r : Option α) (sh : Shared α) :
      TStep (TState.stopped r) sh TState.idle sh

/-- Global configuration: the shared memory and every thread. -/
structure Config (α : Type) where
  sh : Shared α
  ts : Nat → TState α

/-- Step of the whole system: thread tid performs one atomic instruction and
every other thread is left in place. -/
def StepT (tid : Nat) (c c2 : Config α) : Prop :=
  TStep (c.ts tid) c.sh (c2.ts tid) c2.sh ∧ ∀ t, t ≠ tid → c2.ts t = c.ts t

/-- Some thread performs one atomic instruction. -/
def Step (c c2 : Config α) : Prop := ∃ tid, StepT tid c c2

/-- Initial configuration: a fresh queue, every thread idle. -/
def Config.init : Config α := { sh := Shared.init, ts := fun _ => TState.idle }

/-- Configurations the running system can be in. -/
def Reachable (c : Config α) : Prop := Relation.ReflTransGen Step Config.init c

/-- Allowed transitions of one slot value, as stated by the specification:
unchanged, Empty to Occupied (producer CAS), Occupied to Taken (consumer
swap yielding the item), or Empty to Taken (consumer swap on a hole). -/
def SlotTransOK (old new : Slot α) : Prop :=
  new = old ∨
  (old = Slot.empty ∧ ∃ a, new = Slot.occupied a) ∨
  (old = Slot.empty ∧ new = Slot.taken) ∨
  (∃ a, old = Slot.occupied a ∧ new = Slot.taken)

/-- Address i2 is reachable from address i1 by following next links in sh. -/
def ReachLink (sh : Shared α) (i1 i2 : Nat) : Prop :=
  Relation.ReflTransGen (fun x y => (sh.node x).next = some y) i1 i2

/-- Address i is strictly after the head pointer in the chain: reachable from
the head by at least one next link. -/
def StrictlyAfterHead (sh : Shared α) (i : Nat) : Prop :=
  ReachLink sh sh.head i ∧ i ≠ sh.head

/-- No slot of any segment strictly after the head pointer holds the Taken
sentinel.  This is what makes the destructor walk sound: it reinterprets
every non-null slot value of the segments after the head as an item box. -/
def NoTakenAfterHead (sh : Shared α) : Prop :=
  ∀ i, StrictlyAfterHead sh i → ∀ j, sh.slot i j ≠ Slot.taken

/-- Constraints tying the local variables of one thread to the shared state;
these hold in every reachable configuration.  An enqueuer that loaded the
tail keeps a segment that either still is the tail or has a non-null link; a
linking enqueuer also knows the shell address is fresh (above its loaded
tail); an advancing enqueuer knows the link it installed; a dequeuer keeps a
segment at or before the current head. -/
def TLocalsOK (sh : Shared α) : TState α → Prop
  | TState.idle => True
  | TState.enqLoad _ => True
  | TState.enqFaa _ lt => lt < sh.segs.length ∧ (lt = sh.tail ∨ (sh.node lt).next ≠ none)
  | TState.enqCas _ lt _ =>
      lt < sh.segs.length ∧ (lt = sh.tail ∨ (sh.node lt).next ≠ none)
  | TState.enqChk _ lt => lt < sh.segs.length ∧ (lt = sh.tail ∨ (sh.node lt).next ≠ none)
  | TState.enqNext _ lt => lt < sh.segs.length ∧ (lt = sh.tail ∨ (sh.node lt).next ≠ none)
  | TState.enqLink _ lt nw => lt < sh.segs.length ∧ nw < sh.segs.length ∧ lt < nw ∧
      (lt = sh.tail ∨ (sh.node lt).next ≠ none)
  | TState.enqAdv _ lt nw => lt < sh.segs.length ∧ nw < sh.segs.length ∧ lt < nw ∧
      (sh.node lt).next = some nw
  | TState.enqHelp _ lt nx => lt < sh.segs.length ∧ (sh.node lt).next = some nx
  | TState.deqLoad => True
  | TState.deqChkD lh => lh ≤ sh.head
  | TState.deqChkE lh _ => lh ≤ sh.head
  | TState.deqChkN lh => lh ≤ sh.head
  | TState.deqFaa lh => lh ≤ sh.head
  | TState.deqSwap lh _ => lh ≤ sh.head
  | TState.deqNext lh => lh ≤ sh.head
  | TState.deqAdv lh nx => lh ≤ sh.head ∧ (sh.node lh).next = some nx
  | TState.stopped _ => True

/-- Inductive invariant of the concurrent system: the shared pointers are in
bounds, every installed next link points strictly forward in the arena and
in bounds, every thread obeys TLocalsOK, and the Taken sentinel only sits in
segments at or before the head pointer. -/
structure CInv (c : Config α) : Prop where
  headLt : c.sh.head < c.sh.segs.length
  tailLt : c.sh.tail < c.sh.segs.length
  nextInc : ∀ i m, (c.sh.node i).next = some m → i < m ∧ m < c.sh.segs.length
  locals : ∀ tid, TLocalsOK c.sh (c.ts tid)
  takenBound : ∀ i j, c.sh.slot i j = Slot.taken → i ≤ c.sh.head

/-- Structural facts about one step of the chain, as stated by the
specification: a next link changes only from null to a pointer and an
installed link never changes again; the tail pointer never regresses; the
queue keeps at least one segment and the head pointer stays in bounds; and a
segment link is only ever installed on the segment that currently is the
tail. -/
def ChainStepOK (c c2 : Config α) : Prop :=
  (∀ i, (c2.sh.node i).next ≠ (c.sh.node i).next →
    (c.sh.node i).next = none ∧ ∃ m, (c2.sh.node i).next = some m) ∧
  (∀ i m, (c.sh.node i).next = some m → (c2.sh.node i).next = some m) ∧
  c.sh.tail ≤ c2.sh.tail ∧
  (0 < c2.sh.segs.length ∧ c2.sh.head < c2.sh.segs.length) ∧
  (∀ tid a lt nw, c.ts tid = TState.enqLink a lt nw →
    (c.sh.node lt).next = none → lt = c.sh.tail)

/-- The configuration one atomic step after Config.init in which thread 0
has entered dequeue and loaded nothing yet. -/
def initDeqLoad : Config α :=
  { sh := Shared.init
    ts := fun t => if t = 0 then TState.deqLoad else TState.idle }

/-! Basic lemmas about slots, nodes and list access. -/

theorem getD_set {γ : Type} (l : List γ) (i j : Nat) (v d : γ) :
    (l.set i v).getD j d = if i = j ∧ j < l.length then v else l.getD j d := by
  rcases Nat.lt_or_ge j l.length with hj | hj
  · rw [List.getD_eq_getElem _ _ (by simpa using hj), List.getElem_set]
    rcases Decidable.em (i = j) with hij | hij
    · simp [hij, hj]
    · rw [if_neg hij, if_neg (show ¬(i = j ∧ j < l.length) from fun h => hij h.1)]
      rw [List.getD_eq_getElem _ _ hj]
  · rw [List.getD_eq_default _ _ (by simpa using hj), List.getD_eq_default _ _ hj,
      if_neg (show ¬(i = j ∧ j < l.length) from fun h => absurd h.2 (Nat.not_lt.mpr hj))]

theorem getD_replicate {γ : Type} (c d : γ) (k j : Nat) :
    (List.replicate k c).getD j d = if j < k then c else d := by
  rcases Nat.lt_or_ge j k with hj | hj
  · rw [List.getD_eq_getElem _ _ (by simpa using hj), List.getElem_replicate, if_pos hj]
  · rw [List.getD_eq_default _ _ (by simpa using hj), if_neg (Nat.not_lt.mpr hj)]

theorem filterMap_curItem_replicate (k : Nat) :
    (List.replicate k (Slot.empty : Slot α)).filterMap Slot.curItem = [] := by
  induction k with
  | zero => rfl
  | succ k ih =>
      rw [List.replicate_succ, List.filterMap_cons]
      simpa [Slot.curItem] using ih

theorem Node.items_emptyNode : (Node.emptyNode : Node α).items = [] := by
  simp [Node.items, Node.emptyNode, filterMap_curItem_replicate]

theorem Node.items_new (a : α) : (Node.new a).items = [a] := by
  show ((List.replicate BUFFER_SIZE (Slot.empty)).set 0
    (Slot.occupied a)).filterMap Slot.curItem = [a]
  rw [show BUFFER_SIZE = 1023 + 1 from rfl, List.replicate_succ]
  rw [show ((Slot.empty : Slot α) :: List.replicate 1023 (Slot.empty)).set 0
    (Slot.occupied a) = Slot.occupied a :: List.replicate 1023 (Slot.empty) from rfl]
  rw [List.filterMap_cons, show Slot.curItem (Slot.occupied a) = some a from rfl,
    filterMap_curItem_replicate]

theorem NodeWF_emptyNode : NodeWF (Node.emptyNode : Node α) := by
  refine ⟨by simp [Node.emptyNode], ?_, ?_, ?_⟩
  · intro j _
    show (List.replicate BUFFER_SIZE (Slot.empty : Slot α)).getD j (Slot.empty) = Slot.empty
    rw [getD_replicate]
    split <;> rfl
  · intro j hj
    exact absurd hj (by simp [Node.emptyNode])
  · intro j hj
    rw [show (Node.emptyNode : Node α).array =
      List.replicate BUFFER_SIZE (Slot.empty) from rfl, getD_replicate] at hj
    revert hj
    split <;> simp

theorem NodeWF_new (a : α) : NodeWF (Node.new a) := by
  have harr : (Node.new a).array =
      (List.replicate BUFFER_SIZE (Slot.empty)).set 0 (Slot.occupied a) := rfl
  refine ⟨by simp [Node.new], ?_, ?_, ?_⟩
  · intro j hj
    have hj1 : 1 ≤ j := hj
    rw [harr, getD_set, if_neg (by omega), getD_replicate]
    split <;> rfl
  · intro j hj
    exact absurd hj (by simp [Node.new])
  · intro j hj
    rw [harr, getD_set] at hj
    revert hj
    split
    · simp
    · rw [getD_replicate]
      split <;> simp

theorem WF_new : WF (FAAAQueue.new : FAAAQueue α) := by
  refine ⟨by simp [FAAAQueue.new], rfl, ?_, ?_, ?_⟩
  · intro n hn
    rw [FAAAQueue.new, List.mem_singleton] at hn
    rw [hn]
    exact NodeWF_emptyNode
  · intro i hi
    exact absurd hi (by simp [FAAAQueue.new])
  · intro i hi
    rw [FAAAQueue.new]
    show ([Node.emptyNode].getD i Node.emptyNode).dequeue_index = 0
    rcases Nat.lt_or_ge i 1 with h1 | h1
    · omega
    · rw [List.getD_eq_default _ _ (by simpa using h1)]
      rfl

theorem toList_new : toList (FAAAQueue.new : FAAAQueue α) = [] := by
  show ([Node.emptyNode].flatMap Node.items : List α) = []
  rw [List.flatMap_cons, List.flatMap_nil, Node.items_emptyNode, List.append_nil]

/-- C7: whenever the head segment has dequeue_index at or above enqueue_index
and a null next link, dequeue takes the emptiness exit of the loop: it
returns None with the guard protection reset and the state untouched — in
particular no slot index is consumed by the fetch-and-add.  Applied to
FAAAQueue::new() (witness below), this shows a fresh queue dequeues empty
immediately. -/
theorem dequeue_empty_result (q : FAAAQueue α) (hp : HazardPointer)
    (h1 : (q.chain.getD 0 Node.emptyNode).enqueue_index ≤
      (q.chain.getD 0 Node.emptyNode).dequeue_index)
    (h2 : q.chain.length ≤ 1) :
    dequeue q hp = (q, none, { protecting := false }) := by
  rw [dequeue, dequeueLoop]
  dsimp only []
  rw [dif_pos ⟨h1, h2⟩]

/-- Witness for C7: dequeue on a freshly constructed queue returns empty at
once, leaving the queue unchanged. -/
theorem dequeue_empty_result_witness :
    dequeue (FAAAQueue.new : FAAAQueue Nat) { protecting := true } =
      (FAAAQueue.new, none, { protecting := false }) :=
  dequeue_empty_result _ _ (by simp [FAAAQueue.new, Node.emptyNode])
    (by simp [FAAAQueue.new])

/-! Lemmas for the closed-form behavior of enqueue on well-formed states. -/

theorem WF_nodeAt {q : FAAAQueue α} (hq : WF q) {i : Nat} (h : i < q.chain.length) :
    NodeWF (q.chain.getD i Node.emptyNode) := by
  apply hq.nodes
  rw [List.getD_eq_getElem _ _ h]
  exact List.getElem_mem h

theorem WF_tail_lt {q : FAAAQueue α} (hq : WF q) : q.tailIdx < q.chain.length := by
  have h1 : 0 < q.chain.length := List.length_pos.mpr hq.ne
  have h2 := hq.tl
  omega

theorem filterMap_parts (l : List (Slot α)) (i : Nat) (h : i < l.length) :
    l.filterMap Slot.curItem =
      (l.take i).filterMap Slot.curItem ++ (l.getD i (Slot.empty)).curItem.toList ++
        (l.drop (i + 1)).filterMap Slot.curItem := by
  conv_lhs => rw [← List.take_append_drop i l]
  rw [List.filterMap_append, List.drop_eq_getElem_cons h, List.filterMap_cons,
    List.getD_eq_getElem _ _ h]
  cases hv : l[i].curItem <;> simp [hv, Option.toList]

theorem filterMap_set_parts (l : List (Slot α)) (i : Nat) (v : Slot α) (h : i < l.length) :
    (l.set i v).filterMap Slot.curItem =
      (l.take i).filterMap Slot.curItem ++ v.curItem.toList ++
        (l.drop (i + 1)).filterMap Slot.curItem := by
  rw [List.set_eq_take_append_cons_drop, if_pos h, List.filterMap_append, List.filterMap_cons]
  cases hv : v.curItem <;> simp [hv, Option.toList]

theorem enqueueLoop_install (q : FAAAQueue α) (a : α) (hq : WF q)
    (hin : (q.chain.getD q.tailIdx Node.emptyNode).enqueue_index ≤ BUFFER_SIZE - 1) :
    enqueueLoop q a =
      ({ chain := q.chain.set q.tailIdx
          { enqueue_index := (q.chain.getD q.tailIdx Node.emptyNode).enqueue_index + 1
            dequeue_index := (q.chain.getD q.tailIdx Node.emptyNode).dequeue_index
            array := (q.chain.getD q.tailIdx Node.emptyNode).array.set
              ((q.chain.getD q.tailIdx Node.emptyNode).enqueue_index)
              (Slot.occupied a) }
         tailIdx := q.tailIdx }, { protecting := false }) := by
  have hwf := WF_nodeAt hq (WF_tail_lt hq)
  have hslot : (q.chain.getD q.tailIdx Node.emptyNode).array.getD
      ((q.chain.getD q.tailIdx Node.emptyNode).enqueue_index) (Slot.empty) = Slot.empty :=
    hwf.pub _ (Nat.le_refl _)
  rw [enqueueLoop]
  dsimp only []
  rw [dif_neg (Nat.not_lt.mpr hin)]
  split
  · simp [List.set_set]
  · rename_i c heq
    rw [hslot] at heq
    exact Slot.noConfusion heq
  · rename_i heq
    rw [hslot] at heq
    exact Slot.noConfusion heq

theorem enqueueLoop_append (q : FAAAQueue α) (a : α) (hq : WF q)
    (hfl : BUFFER_SIZE - 1 < (q.chain.getD q.tailIdx Node.emptyNode).enqueue_index) :
    enqueueLoop q a =
      ({ chain := (q.chain.set q.tailIdx
          { enqueue_index := (q.chain.getD q.tailIdx Node.emptyNode).enqueue_index + 1
            dequeue_index := (q.chain.getD q.tailIdx Node.emptyNode).dequeue_index
            array := (q.chain.getD q.tailIdx Node.emptyNode).array }) ++
            [Node.new a]
         tailIdx := q.chain.length }, { protecting := false }) := by
  have htl := WF_tail_lt hq
  have htl2 := hq.tl
  rw [enqueueLoop]
  dsimp only []
  rw [dif_pos hfl, dif_neg (show ¬ q.tailIdx + 1 < q.chain.length from by omega)]
  simp [List.length_set]

theorem set_last_decomp {γ : Type} (l : List γ) (v : γ) (h : l ≠ []) :
    l.set (l.length - 1) v = l.take (l.length - 1) ++ [v] := by
  have hlen : 0 < l.length := List.length_pos.mpr h
  rw [List.set_eq_take_append_cons_drop, if_pos (by omega)]
  congr 1
  rw [show l.length - 1 + 1 = l.length from by omega, List.drop_length]

theorem last_decomp {γ : Type} (l : List γ) (d : γ) (h : l ≠ []) :
    l = l.take (l.length - 1) ++ [l.getD (l.length - 1) d] := by
  have hlen : 0 < l.length := List.length_pos.mpr h
  conv_lhs => rw [← List.take_append_drop (l.length - 1) l]
  congr 1
  rw [List.drop_eq_getElem_cons (by omega), List.getD_eq_getElem _ _ (by omega),
    show l.length - 1 + 1 = l.length from by omega, List.drop_length]

theorem items_install (n : Node α) (a : α) (hwf : NodeWF n)
    (hin : n.enqueue_index ≤ BUFFER_SIZE - 1) :
    Node.items { enqueue_index := n.enqueue_index + 1
                 dequeue_index := n.dequeue_index
                 array := n.array.set n.enqueue_index (Slot.occupied a) } =
      n.items ++ [a] := by
  have hB : BUFFER_SIZE = 1024 := rfl
  have hlen := hwf.len
  have he : n.enqueue_index < n.array.length := by omega
  show (n.array.set n.enqueue_index (Slot.occupied a)).filterMap Slot.curItem =
    n.array.filterMap Slot.curItem ++ [a]
  rw [filterMap_set_parts _ _ _ he, filterMap_parts n.array n.enqueue_index he]
  have hdrop : (n.array.drop (n.enqueue_index + 1)).filterMap Slot.curItem = [] := by
    rw [List.filterMap_eq_nil_iff]
    intro s hs
    obtain ⟨j, hj, rfl⟩ := List.mem_iff_getElem.mp hs
    rw [List.getElem_drop]
    have hk : n.enqueue_index + 1 + j < n.array.length := by
      rw [List.length_drop] at hj; omega
    have hp2 := hwf.pub (n.enqueue_index + 1 + j) (by omega)
    rw [List.getD_eq_getElem _ _ hk] at hp2
    rw [hp2]; rfl
  have hcur : (n.array.getD n.enqueue_index (Slot.empty)).curItem = none := by
    rw [hwf.pub _ (Nat.le_refl _)]; rfl
  rw [hdrop, hcur]
  simp [Slot.curItem, Option.toList]

theorem NodeWF_install (n : Node α) (a : α) (hwf : NodeWF n)
    (hin : n.enqueue_index ≤ BUFFER_SIZE - 1) :
    NodeWF { enqueue_index := n.enqueue_index + 1
             dequeue_index := n.dequeue_index
             array := n.array.set n.enqueue_index (Slot.occupied a) } := by
  have hB : BUFFER_SIZE = 1024 := rfl
  have hlen := hwf.len
  refine ⟨by simpa using hwf.len, ?_, ?_, ?_⟩
  · intro j hj
    have hj2 : n.enqueue_index + 1 ≤ j := hj
    show (n.array.set n.enqueue_index (Slot.occupied a)).getD j (Slot.empty) = Slot.empty
    rw [getD_set, if_neg (fun hc => absurd hc.1 (by omega))]
    exact hwf.pub j (by omega)
  · intro j hj1 hj2
    have hj3 : j < n.dequeue_index := hj1
    have hj4 : j < (n.array.set n.enqueue_index (Slot.occupied a)).length := hj2
    rw [List.length_set] at hj4
    show (n.array.set n.enqueue_index (Slot.occupied a)).getD j (Slot.empty) = Slot.taken
    rw [getD_set]
    split
    · rename_i hc
      have h1 := hwf.scanned j hj3 hj4
      have h2 := hwf.pub j (Nat.le_of_eq hc.1)
      rw [h1] at h2
      exact Slot.noConfusion h2
    · exact hwf.scanned j hj3 hj4
  · intro j hj
    have hj2 : (n.array.set n.enqueue_index (Slot.occupied a)).getD j (Slot.empty) =
      Slot.taken := hj
    show j < n.dequeue_index
    rw [getD_set] at hj2
    revert hj2
    split
    · intro hj2; exact Slot.noConfusion hj2
    · intro hj2; exact hwf.taken_lt j hj2

theorem NodeWF_bump (n : Node α) (hwf : NodeWF n) :
    NodeWF { enqueue_index := n.enqueue_index + 1
             dequeue_index := n.dequeue_index
             array := n.array } := by
  refine ⟨hwf.len, ?_, hwf.scanned, hwf.taken_lt⟩
  intro j hj
  have hj2 : n.enqueue_index + 1 ≤ j := hj
  exact hwf.pub j (by omega)

theorem enqueue_toList (q : FAAAQueue α) (a : α) (hp : HazardPointer) (hq : WF q) :
    toList (enqueue q a hp).1 = toList q ++ [a] := by
  have hB : BUFFER_SIZE = 1024 := rfl
  rcases Nat.lt_or_ge ((q.chain.getD q.tailIdx Node.emptyNode).enqueue_index) BUFFER_SIZE
    with hin | hfl
  · rw [enqueue, enqueueLoop_install q a hq (by omega)]
    simp only [toList]
    rw [hq.tl, set_last_decomp _ _ hq.ne]
    conv_rhs => rw [last_decomp q.chain Node.emptyNode hq.ne]
    rw [List.flatMap_append, List.flatMap_append]
    simp only [List.flatMap_cons, List.flatMap_nil, List.append_nil]
    rw [items_install _ _ (by rw [← hq.tl]; exact WF_nodeAt hq (WF_tail_lt hq))
      (by rw [← hq.tl]; omega)]
    rw [List.append_assoc]
  · rw [enqueue, enqueueLoop_append q a hq (by omega)]
    simp only [toList]
    rw [List.flatMap_append]
    simp only [List.flatMap_cons, List.flatMap_nil, List.append_nil, Node.items_new]
    rw [hq.tl, set_last_decomp _ _ hq.ne]
    conv_rhs => rw [last_decomp q.chain Node.emptyNode hq.ne]
    rw [List.flatMap_append, List.flatMap_append]
    simp only [List.flatMap_cons, List.flatMap_nil, List.append_nil]
    rfl

theorem enqueue_WF (q : FAAAQueue α) (a : α) (hp : HazardPointer) (hq : WF q) :
    WF (enqueue q a hp).1 := by
  have hB : BUFFER_SIZE = 1024 := rfl
  have htl := WF_tail_lt hq
  rcases Nat.lt_or_ge ((q.chain.getD q.tailIdx Node.emptyNode).enqueue_index) BUFFER_SIZE
    with hin | hfl
  · rw [enqueue, enqueueLoop_install q a hq (by omega)]
    refine ⟨?_, ?_, ?_, ?_, ?_⟩
    · show q.chain.set _ _ ≠ []
      intro hc
      have hl := congrArg List.length hc
      rw [List.length_set] at hl
      exact hq.ne (List.length_eq_zero.mp hl)
    · show q.tailIdx = _
      rw [List.length_set]
      exact hq.tl
    · intro m hm
      obtain ⟨j, hj, rfl⟩ := List.mem_iff_getElem.mp hm
      rw [List.getElem_set]
      split
      · exact NodeWF_install _ _ (WF_nodeAt hq htl) (by omega)
      · rw [List.length_set] at hj
        exact hq.nodes _ (List.getElem_mem hj)
    · intro i hi
      rw [List.length_set] at hi
      show BUFFER_SIZE + 1 ≤ ((q.chain.set _ _).getD i Node.emptyNode).enqueue_index
      rw [getD_set, if_neg (fun hc => by have := hq.tl; omega)]
      exact hq.full i hi
    · intro i hi0
      show ((q.chain.set _ _).getD i Node.emptyNode).dequeue_index = 0
      rw [getD_set]
      split
      · rename_i hc
        show (q.chain.getD q.tailIdx Node.emptyNode).dequeue_index = 0
        rw [hc.1]
        exact hq.deq0 i hi0
      · exact hq.deq0 i hi0
  · rw [enqueue, enqueueLoop_append q a hq (by omega)]
    refine ⟨?_, ?_, ?_, ?_, ?_⟩
    · simp
    · show q.chain.length = _
      rw [List.length_append, List.length_set]
      simp
    · intro m hm
      rw [List.mem_append] at hm
      rcases hm with hm | hm
      · obtain ⟨j, hj, rfl⟩ := List.mem_iff_getElem.mp hm
        rw [List.getElem_set]
        split
        · exact NodeWF_bump _ (WF_nodeAt hq htl)
        · rw [List.length_set] at hj
          exact hq.nodes _ (List.getElem_mem hj)
      · rw [List.mem_singleton] at hm
        rw [hm]
        exact NodeWF_new a
    · intro i hi
      rw [List.length_append, List.length_set, List.length_singleton] at hi
      show BUFFER_SIZE + 1 ≤
        (((q.chain.set _ _) ++ [Node.new a]).getD i Node.emptyNode).enqueue_index
      rw [List.getD_append _ _ _ _ (by rw [List.length_set]; omega), getD_set]
      split
      · rename_i hc
        show BUFFER_SIZE + 1 ≤ (q.chain.getD q.tailIdx Node.emptyNode).enqueue_index + 1
        omega
      · rename_i hc
        have hit : i ≠ q.tailIdx := fun he => hc ⟨he.symm, by omega⟩
        have := hq.tl
        exact hq.full i (by omega)
    · intro i hi0
      show ((q.chain.set _ _ ++ [Node.new a]).getD i Node.emptyNode).dequeue_index = 0
      rcases Nat.lt_trichotomy i q.chain.length with hlt | heq | hgt
      · rw [List.getD_append _ _ _ _ (by rw [List.length_set]; omega), getD_set]
        split
        · rename_i hc
          show (q.chain.getD q.tailIdx Node.emptyNode).dequeue_index = 0
          rw [hc.1]
          exact hq.deq0 i hi0
        · exact hq.deq0 i hi0
      · rw [List.getD_eq_getElem _ _ (by
          rw [List.length_append, List.length_set, List.length_singleton]; omega)]
        rw [List.getElem_append_right (by rw [List.length_set]; omega)]
        simp [List.length_set, heq, Node.new]
      · rw [List.getD_eq_default _ _ (by
          rw [List.length_append, List.length_set, List.length_singleton]; omega)]
        rfl

theorem enqueue_guard (q : FAAAQueue α) (a : α) (hp : HazardPointer) (hq : WF q) :
    (enqueue q a hp).2 = { protecting := false } := by
  have hB : BUFFER_SIZE = 1024 := rfl
  rcases Nat.lt_or_ge ((q.chain.getD q.tailIdx Node.emptyNode).enqueue_index) BUFFER_SIZE
    with hin | hfl
  · rw [enqueue, enqueueLoop_install q a hq (by omega)]
  · rw [enqueue, enqueueLoop_append q a hq (by omega)]

/-! Lemmas for the behavior of dequeue on well-formed states. -/

theorem toList_head_decomp (q : FAAAQueue α) (h : q.chain ≠ []) :
    toList q = (q.chain.getD 0 Node.emptyNode).items ++
      (q.chain.drop 1).flatMap Node.items := by
  rcases hc : q.chain with _ | ⟨n, rest⟩
  · exact absurd hc h
  · rw [toList, hc, List.flatMap_cons, List.getD_cons_zero, List.drop_one, List.tail_cons]

theorem items_nil_all_taken (n : Node α) (hwf : NodeWF n)
    (hge : BUFFER_SIZE ≤ n.dequeue_index) : n.items = [] := by
  rw [Node.items, List.filterMap_eq_nil_iff]
  intro s hs
  obtain ⟨j, hj, rfl⟩ := List.mem_iff_getElem.mp hs
  have hsc := hwf.scanned j (by have := hwf.len; omega) hj
  rw [List.getD_eq_getElem _ _ hj] at hsc
  rw [hsc]
  rfl

theorem items_nil_deq_ge_enq (n : Node α) (hwf : NodeWF n)
    (hge : n.enqueue_index ≤ n.dequeue_index) : n.items = [] := by
  rw [Node.items, List.filterMap_eq_nil_iff]
  intro s hs
  obtain ⟨j, hj, rfl⟩ := List.mem_iff_getElem.mp hs
  rcases Nat.lt_or_ge j n.enqueue_index with hj2 | hj2
  · have hsc := hwf.scanned j (by omega) hj
    rw [List.getD_eq_getElem _ _ hj] at hsc
    rw [hsc]
    rfl
  · have hsc := hwf.pub j hj2
    rw [List.getD_eq_getElem _ _ hj] at hsc
    rw [hsc]
    rfl

theorem take_deq_nil (n : Node α) (hwf : NodeWF n) :
    (n.array.take n.dequeue_index).filterMap Slot.curItem = [] := by
  rw [List.filterMap_eq_nil_iff]
  intro s hs
  obtain ⟨j, hj, rfl⟩ := List.mem_iff_getElem.mp hs
  have hjlen : j < n.array.length := by
    rw [List.length_take] at hj
    omega
  have hjd : j < n.dequeue_index := by
    rw [List.length_take] at hj
    omega
  rw [List.getElem_take]
  have hsc := hwf.scanned j hjd hjlen
  rw [List.getD_eq_getElem _ _ hjlen] at hsc
  rw [hsc]
  rfl

theorem items_deq_decomp (n : Node α) (hwf : NodeWF n)
    (hlt : n.dequeue_index < BUFFER_SIZE) :
    n.items = (n.array.getD n.dequeue_index (Slot.empty)).curItem.toList ++
      (n.array.drop (n.dequeue_index + 1)).filterMap Slot.curItem := by
  have hlen := hwf.len
  rw [Node.items, filterMap_parts n.array n.dequeue_index (by omega),
    take_deq_nil n hwf, List.nil_append]

theorem items_mark (n : Node α) (hwf : NodeWF n)
    (hlt : n.dequeue_index < BUFFER_SIZE) :
    Node.items { enqueue_index := n.enqueue_index
                 dequeue_index := n.dequeue_index + 1
                 array := n.array.set n.dequeue_index (Slot.taken) } =
      (n.array.drop (n.dequeue_index + 1)).filterMap Slot.curItem := by
  have hlen := hwf.len
  show (n.array.set n.dequeue_index (Slot.taken)).filterMap Slot.curItem = _
  rw [filterMap_set_parts _ _ _ (by omega), take_deq_nil n hwf]
  rfl

theorem NodeWF_mark (n : Node α) (hwf : NodeWF n)
    (hlt : n.dequeue_index < BUFFER_SIZE) (hde : n.dequeue_index < n.enqueue_index) :
    NodeWF { enqueue_index := n.enqueue_index
             dequeue_index := n.dequeue_index + 1
             array := n.array.set n.dequeue_index (Slot.taken) } := by
  have hlen := hwf.len
  refine ⟨by simpa using hwf.len, ?_, ?_, ?_⟩
  · intro j hj
    have hj2 : n.enqueue_index ≤ j := hj
    show (n.array.set n.dequeue_index (Slot.taken)).getD j (Slot.empty) = Slot.empty
    rw [getD_set, if_neg (fun hc => absurd hc.1 (by omega))]
    exact hwf.pub j hj2
  · intro j hj1 hj2
    have hj3 : j < n.dequeue_index + 1 := hj1
    have hj4 : j < (n.array.set n.dequeue_index (Slot.taken)).length := hj2
    rw [List.length_set] at hj4
    show (n.array.set n.dequeue_index (Slot.taken)).getD j (Slot.empty) = Slot.taken
    rw [getD_set]
    split
    · rfl
    · rename_i hc
      have hjd : j < n.dequeue_index := by
        rcases Nat.lt_or_ge j n.dequeue_index with h | h
        · exact h
        · exact absurd ⟨by omega, by omega⟩ hc
      exact hwf.scanned j hjd hj4
  · intro j hj
    have hj2 : (n.array.set n.dequeue_index (Slot.taken)).getD j (Slot.empty) =
      Slot.taken := hj
    show j < n.dequeue_index + 1
    rw [getD_set] at hj2
    revert hj2
    split
    · rename_i hc
      intro _
      omega
    · intro hj2
      have := hwf.taken_lt j hj2
      omega

theorem NodeWF_bumpDeq (n : Node α) (hwf : NodeWF n)
    (hge : BUFFER_SIZE ≤ n.dequeue_index) :
    NodeWF { enqueue_index := n.enqueue_index
             dequeue_index := n.dequeue_index + 1
             array := n.array } := by
  have hlen := hwf.len
  refine ⟨hwf.len, hwf.pub, ?_, ?_⟩
  · intro j hj1 hj2
    have hj3 : j < n.array.length := hj2
    have hj4 : j < n.dequeue_index + 1 := hj1
    exact hwf.scanned j (by omega) hj3
  · intro j hj
    have h2 := hwf.taken_lt j hj
    show j < n.dequeue_index + 1
    omega

theorem WF_set_head (q : FAAAQueue α) (v : Node α) (hq : WF q) (hv : NodeWF v)
    (henq : v.enqueue_index = (q.chain.getD 0 Node.emptyNode).enqueue_index) :
    WF { chain := q.chain.set 0 v, tailIdx := q.tailIdx } := by
  have hL : 0 < q.chain.length := List.length_pos.mpr hq.ne
  refine ⟨?_, ?_, ?_, ?_, ?_⟩
  · show q.chain.set 0 v ≠ []
    intro hc
    have hl := congrArg List.length hc
    rw [List.length_set] at hl
    exact hq.ne (List.length_eq_zero.mp hl)
  · show q.tailIdx = _
    rw [List.length_set]
    exact hq.tl
  · intro m hm
    obtain ⟨j, hj, rfl⟩ := List.mem_iff_getElem.mp hm
    rw [List.getElem_set]
    split
    · exact hv
    · rw [List.length_set] at hj
      exact hq.nodes _ (List.getElem_mem hj)
  · intro i hi
    rw [List.length_set] at hi
    show BUFFER_SIZE + 1 ≤ ((q.chain.set 0 v).getD i Node.emptyNode).enqueue_index
    rw [getD_set]
    split
    · rename_i hc
      obtain ⟨h01, _⟩ := hc
      rw [henq]
      exact hq.full 0 (by omega)
    · exact hq.full i hi
  · intro i hi0
    show ((q.chain.set 0 v).getD i Node.emptyNode).dequeue_index = 0
    rw [getD_set, if_neg (fun hc => by omega)]
    exact hq.deq0 i hi0

theorem toList_set_head (q : FAAAQueue α) (v : Node α) (hne : q.chain ≠ []) :
    toList { chain := q.chain.set 0 v, tailIdx := q.tailIdx } =
      v.items ++ (q.chain.drop 1).flatMap Node.items := by
  have hL : 0 < q.chain.length := List.length_pos.mpr hne
  rw [toList_head_decomp _ (by
    intro hc
    have hl := congrArg List.length hc
    rw [List.length_set] at hl
    exact hne (List.length_eq_zero.mp hl))]
  dsimp only []
  rw [getD_set, if_pos ⟨rfl, hL⟩, List.drop_set,
    if_pos (show (0:Nat) < 1 from by omega)]

theorem WF_drop_head (q : FAAAQueue α) (hq : WF q) (h2 : 2 ≤ q.chain.length) :
    WF { chain := q.chain.drop 1, tailIdx := q.tailIdx - 1 } := by
  refine ⟨?_, ?_, ?_, ?_, ?_⟩
  · show q.chain.drop 1 ≠ []
    intro hc
    have hl := congrArg List.length hc
    rw [List.length_drop] at hl
    have : q.chain.length - 1 = 0 := hl
    omega
  · show q.tailIdx - 1 = _
    rw [List.length_drop]
    have := hq.tl
    omega
  · intro m hm
    exact hq.nodes m (List.mem_of_mem_drop hm)
  · intro i hi
    rw [List.length_drop] at hi
    show BUFFER_SIZE + 1 ≤ ((q.chain.drop 1).getD i Node.emptyNode).enqueue_index
    rw [List.getD_eq_getElem _ _ (by rw [List.length_drop]; omega), List.getElem_drop]
    have h3 := hq.full (1 + i) (by omega)
    rw [List.getD_eq_getElem _ _ (by omega)] at h3
    exact h3
  · intro i hi0
    show ((q.chain.drop 1).getD i Node.emptyNode).dequeue_index = 0
    rcases Nat.lt_or_ge i (q.chain.length - 1) with hlt | hge
    · rw [List.getD_eq_getElem _ _ (by rw [List.length_drop]; omega), List.getElem_drop]
      have h3 := hq.deq0 (1 + i) (by omega)
      rw [List.getD_eq_getElem _ _ (by omega)] at h3
      exact h3
    · rw [List.getD_eq_default _ _ (by rw [List.length_drop]; omega)]
      rfl

/-- Behavior of the dequeue retry loop on any well-formed state: it returns
the oldest item of the abstraction (the head of toList) or none when the
abstraction is empty, the resulting state is well formed and abstracts to the
tail of toList, and the guard protection at return is set exactly when an
item was returned (the source resets it only on the empty path). -/
theorem dequeueLoop_spec : ∀ (q : FAAAQueue α), WF q →
    WF (dequeueLoop q).1 ∧
    (dequeueLoop q).2.1 = (toList q).head? ∧
    toList (dequeueLoop q).1 = (toList q).tail ∧
    (dequeueLoop q).2.2 = { protecting := ((dequeueLoop q).2.1).isSome } := by
  intro q
  induction q using dequeueLoop.induct with
  | case1 x =>
    intro hq
    rename_i lhead hchk
    have hchk2 : (x.chain.getD 0 Node.emptyNode).enqueue_index ≤ (x.chain.getD 0 Node.emptyNode).dequeue_index ∧ x.chain.length ≤ 1 := hchk
    have heq : dequeueLoop x = (x, none, { protecting := false }) := by
      rw [dequeueLoop]
      dsimp only []
      rw [dif_pos hchk2]
    have hnil : toList x = [] := by
      rw [toList_head_decomp x hq.ne,
        items_nil_deq_ge_enq _ (WF_nodeAt hq (List.length_pos.mpr hq.ne)) hchk2.1]
      have hd : x.chain.drop 1 = [] := by
        rw [← List.length_eq_zero, List.length_drop]
        omega
      rw [hd]
      rfl
    rw [heq, hnil]
    exact ⟨hq, rfl, rfl, rfl⟩
  | case2 x =>
    intro hq
    rename_i lhead hchk idx hfull hnext
    have hB : BUFFER_SIZE = 1024 := rfl
    have hL : 0 < x.chain.length := List.length_pos.mpr hq.ne
    have hwfh := WF_nodeAt hq hL
    have hchk2 : ¬ ((x.chain.getD 0 Node.emptyNode).enqueue_index ≤ (x.chain.getD 0 Node.emptyNode).dequeue_index ∧
        x.chain.length ≤ 1) := hchk
    have hfull2 : BUFFER_SIZE - 1 < (x.chain.getD 0 Node.emptyNode).dequeue_index := hfull
    have hnext2 : x.chain.length ≤ 1 := hnext
    have heq : dequeueLoop x =
        (({ chain := x.chain.set 0
              { enqueue_index := (x.chain.getD 0 Node.emptyNode).enqueue_index
                dequeue_index := (x.chain.getD 0 Node.emptyNode).dequeue_index + 1
                array := (x.chain.getD 0 Node.emptyNode).array }
            tailIdx := x.tailIdx } : FAAAQueue α), none, { protecting := false }) := by
      rw [dequeueLoop]
      dsimp only []
      rw [dif_neg hchk2, dif_pos hfull2, dif_pos hnext2]
    have hdropnil : x.chain.drop 1 = [] := by
      rw [← List.length_eq_zero, List.length_drop]
      omega
    have hnilx : toList x = [] := by
      rw [toList_head_decomp x hq.ne, items_nil_all_taken _ hwfh (by omega), hdropnil]
      rfl
    have hvwf : NodeWF
        { enqueue_index := (x.chain.getD 0 Node.emptyNode).enqueue_index
          dequeue_index := (x.chain.getD 0 Node.emptyNode).dequeue_index + 1
          array := (x.chain.getD 0 Node.emptyNode).array } :=
      NodeWF_bumpDeq _ hwfh (by omega)
    have hnilq1 : toList
        ({ chain := x.chain.set 0
             { enqueue_index := (x.chain.getD 0 Node.emptyNode).enqueue_index
               dequeue_index := (x.chain.getD 0 Node.emptyNode).dequeue_index + 1
               array := (x.chain.getD 0 Node.emptyNode).array }
           tailIdx := x.tailIdx } : FAAAQueue α) = ([] : List α) := by
      rw [toList_set_head _ _ hq.ne, items_nil_all_taken _ hvwf (by
        show BUFFER_SIZE ≤ (x.chain.getD 0 Node.emptyNode).dequeue_index + 1
        omega), hdropnil]
      rfl
    rw [heq, hnilx]
    exact ⟨WF_set_head x _ hq hvwf rfl, rfl, by rw [hnilq1]; rfl, rfl⟩
  | case3 x =>
    intro hq
    rename_i lhead hchk idx q1 hfull hnext ih
    have hB : BUFFER_SIZE = 1024 := rfl
    have hL : 0 < x.chain.length := List.length_pos.mpr hq.ne
    have hwfh := WF_nodeAt hq hL
    have hchk2 : ¬ ((x.chain.getD 0 Node.emptyNode).enqueue_index ≤ (x.chain.getD 0 Node.emptyNode).dequeue_index ∧
        x.chain.length ≤ 1) := hchk
    have hfull2 : BUFFER_SIZE - 1 < (x.chain.getD 0 Node.emptyNode).dequeue_index := hfull
    have hnext2 : ¬ x.chain.length ≤ 1 := hnext
    have hDeq : ({ chain := List.drop 1 q1.chain, tailIdx := q1.tailIdx - 1 } :
        FAAAQueue α) = { chain := x.chain.drop 1, tailIdx := x.tailIdx - 1 } := by
      unfold_let q1
      rw [List.drop_set, if_pos (show (0:Nat) < 1 from by omega)]
    rw [hDeq] at ih
    have hspec := ih (WF_drop_head x hq (by omega))
    have heq : dequeueLoop x =
        dequeueLoop { chain := x.chain.drop 1, tailIdx := x.tailIdx - 1 } := by
      conv_lhs => rw [dequeueLoop]
      dsimp only []
      rw [dif_neg hchk2, dif_pos hfull2, dif_neg hnext2,
        List.drop_set, if_pos (show (0:Nat) < 1 from by omega)]
    have htx : toList x =
        toList { chain := x.chain.drop 1, tailIdx := x.tailIdx - 1 } := by
      rw [toList_head_decomp x hq.ne, items_nil_all_taken _ hwfh (by omega),
        List.nil_append]
      rfl
    rw [heq, htx]
    exact hspec
  | case4 x =>
    intro hq
    rename_i lhead hchk idx q1 hfull hswap ih
    have hB : BUFFER_SIZE = 1024 := rfl
    have hL : 0 < x.chain.length := List.length_pos.mpr hq.ne
    have hwfh := WF_nodeAt hq hL
    have hchk2 : ¬ ((x.chain.getD 0 Node.emptyNode).enqueue_index ≤ (x.chain.getD 0 Node.emptyNode).dequeue_index ∧
        x.chain.length ≤ 1) := hchk
    have hfull2 : ¬ BUFFER_SIZE - 1 < (x.chain.getD 0 Node.emptyNode).dequeue_index := hfull
    have hswap2 : (x.chain.getD 0 Node.emptyNode).array.getD
        ((x.chain.getD 0 Node.emptyNode).dequeue_index) (Slot.empty) = Slot.empty := hswap
    have hde : (x.chain.getD 0 Node.emptyNode).dequeue_index < (x.chain.getD 0 Node.emptyNode).enqueue_index := by
      rcases Nat.lt_or_ge ((x.chain.getD 0 Node.emptyNode).dequeue_index) ((x.chain.getD 0 Node.emptyNode).enqueue_index) with h | h
      · exact h
      · have hlen2 : ¬ x.chain.length ≤ 1 := fun hl => hchk2 ⟨h, hl⟩
        have hf := hq.full 0 (by omega)
        omega
    have hmwf : NodeWF
        { enqueue_index := (x.chain.getD 0 Node.emptyNode).enqueue_index
          dequeue_index := (x.chain.getD 0 Node.emptyNode).dequeue_index + 1
          array := (x.chain.getD 0 Node.emptyNode).array.set
            ((x.chain.getD 0 Node.emptyNode).dequeue_index) (Slot.taken) } :=
      NodeWF_mark _ hwfh (by omega) hde
    have hMeq :
        ({ chain := q1.chain.set 0
             { enqueue_index := lhead.enqueue_index
               dequeue_index := lhead.dequeue_index + 1
               array := lhead.array.set idx (Slot.taken) }
           tailIdx := q1.tailIdx } : FAAAQueue α) =
        ({ chain := x.chain.set 0
             { enqueue_index := (x.chain.getD 0 Node.emptyNode).enqueue_index
               dequeue_index := (x.chain.getD 0 Node.emptyNode).dequeue_index + 1
               array := (x.chain.getD 0 Node.emptyNode).array.set
                 ((x.chain.getD 0 Node.emptyNode).dequeue_index) (Slot.taken) }
           tailIdx := x.tailIdx } : FAAAQueue α) := by
      unfold_let q1 idx lhead
      rw [List.set_set]
    rw [hMeq] at ih
    have hspec := ih (WF_set_head x _ hq hmwf rfl)
    have heq : dequeueLoop x = dequeueLoop
        ({ chain := x.chain.set 0
             { enqueue_index := (x.chain.getD 0 Node.emptyNode).enqueue_index
               dequeue_index := (x.chain.getD 0 Node.emptyNode).dequeue_index + 1
               array := (x.chain.getD 0 Node.emptyNode).array.set
                 ((x.chain.getD 0 Node.emptyNode).dequeue_index) (Slot.taken) }
           tailIdx := x.tailIdx } : FAAAQueue α) := by
      conv_lhs => rw [dequeueLoop]
      dsimp only []
      rw [dif_neg hchk2, dif_neg hfull2]
      split
      · rw [List.set_set]
      · rename_i c heq2
        rw [hswap2] at heq2
        exact Slot.noConfusion heq2
      · rename_i heq2
        rw [hswap2] at heq2
        exact Slot.noConfusion heq2
    have htx : toList x = toList
        ({ chain := x.chain.set 0
             { enqueue_index := (x.chain.getD 0 Node.emptyNode).enqueue_index
               dequeue_index := (x.chain.getD 0 Node.emptyNode).dequeue_index + 1
               array := (x.chain.getD 0 Node.emptyNode).array.set
                 ((x.chain.getD 0 Node.emptyNode).dequeue_index) (Slot.taken) }
           tailIdx := x.tailIdx } : FAAAQueue α) := by
      rw [toList_head_decomp x hq.ne, toList_set_head _ _ hq.ne,
        items_deq_decomp _ hwfh (by omega), items_mark _ hwfh (by omega), hswap2]
      rfl
    rw [heq, htx]
    exact hspec
  | case5 x =>
    intro hq
    rename_i lhead hchk idx hfull a hswap
    have hB : BUFFER_SIZE = 1024 := rfl
    have hL : 0 < x.chain.length := List.length_pos.mpr hq.ne
    have hwfh := WF_nodeAt hq hL
    have hchk2 : ¬ ((x.chain.getD 0 Node.emptyNode).enqueue_index ≤ (x.chain.getD 0 Node.emptyNode).dequeue_index ∧
        x.chain.length ≤ 1) := hchk
    have hfull2 : ¬ BUFFER_SIZE - 1 < (x.chain.getD 0 Node.emptyNode).dequeue_index := hfull
    have hswap2 : (x.chain.getD 0 Node.emptyNode).array.getD
        ((x.chain.getD 0 Node.emptyNode).dequeue_index) (Slot.empty) = Slot.occupied a := hswap
    have hde : (x.chain.getD 0 Node.emptyNode).dequeue_index < (x.chain.getD 0 Node.emptyNode).enqueue_index := by
      rcases Nat.lt_or_ge ((x.chain.getD 0 Node.emptyNode).dequeue_index) ((x.chain.getD 0 Node.emptyNode).enqueue_index) with h | h
      · exact h
      · have hlen2 : ¬ x.chain.length ≤ 1 := fun hl => hchk2 ⟨h, hl⟩
        have hf := hq.full 0 (by omega)
        omega
    have hmwf : NodeWF
        { enqueue_index := (x.chain.getD 0 Node.emptyNode).enqueue_index
          dequeue_index := (x.chain.getD 0 Node.emptyNode).dequeue_index + 1
          array := (x.chain.getD 0 Node.emptyNode).array.set
            ((x.chain.getD 0 Node.emptyNode).dequeue_index) (Slot.taken) } :=
      NodeWF_mark _ hwfh (by omega) hde
    have heq : dequeueLoop x =
        (({ chain := x.chain.set 0
              { enqueue_index := (x.chain.getD 0 Node.emptyNode).enqueue_index
                dequeue_index := (x.chain.getD 0 Node.emptyNode).dequeue_index + 1
                array := (x.chain.getD 0 Node.emptyNode).array.set
                  ((x.chain.getD 0 Node.emptyNode).dequeue_index) (Slot.taken) }
            tailIdx := x.tailIdx } : FAAAQueue α), some a, { protecting := true }) := by
      rw [dequeueLoop]
      dsimp only []
      rw [dif_neg hchk2, dif_neg hfull2]
      split
      · rename_i heq2
        rw [hswap2] at heq2
        exact Slot.noConfusion heq2
      · rename_i c heq2
        rw [hswap2] at heq2
        cases heq2
        rw [List.set_set]
      · rename_i heq2
        rw [hswap2] at heq2
        exact Slot.noConfusion heq2
    have htx : toList x = a :: (((x.chain.getD 0 Node.emptyNode).array.drop
        ((x.chain.getD 0 Node.emptyNode).dequeue_index + 1)).filterMap Slot.curItem ++
        (x.chain.drop 1).flatMap Node.items) := by
      rw [toList_head_decomp x hq.ne, items_deq_decomp _ hwfh (by omega), hswap2]
      rfl
    have htm : toList
        ({ chain := x.chain.set 0
             { enqueue_index := (x.chain.getD 0 Node.emptyNode).enqueue_index
               dequeue_index := (x.chain.getD 0 Node.emptyNode).dequeue_index + 1
               array := (x.chain.getD 0 Node.emptyNode).array.set
                 ((x.chain.getD 0 Node.emptyNode).dequeue_index) (Slot.taken) }
           tailIdx := x.tailIdx } : FAAAQueue α) =
        ((x.chain.getD 0 Node.emptyNode).array.drop
          ((x.chain.getD 0 Node.emptyNode).dequeue_index + 1)).filterMap Slot.curItem ++
        (x.chain.drop 1).flatMap Node.items := by
      rw [toList_set_head _ _ hq.ne, items_mark _ hwfh (by omega)]
    rw [heq, htx]
    refine ⟨WF_set_head x _ hq hmwf rfl, rfl, ?_, rfl⟩
    rw [htm]
    rfl
  | case6 x =>
    intro hq
    rename_i lhead hchk idx hfull hswap
    have hL : 0 < x.chain.length := List.length_pos.mpr hq.ne
    have hwfh := WF_nodeAt hq hL
    have hswap2 : (x.chain.getD 0 Node.emptyNode).array.getD
        ((x.chain.getD 0 Node.emptyNode).dequeue_index) (Slot.empty) = Slot.taken := hswap
    exact absurd (hwfh.taken_lt _ hswap2) (Nat.lt_irrefl _)

/-! Sequences of calls: refinement to a functional FIFO queue. -/

theorem dequeue_spec (q : FAAAQueue α) (hp : HazardPointer) (hq : WF q) :
    WF (dequeue q hp).1 ∧
    (dequeue q hp).2.1 = (toList q).head? ∧
    toList (dequeue q hp).1 = (toList q).tail ∧
    (dequeue q hp).2.2 = { protecting := ((dequeue q hp).2.1).isSome } :=
  dequeueLoop_spec q hq

theorem runOps_invariant (ops : List (Op α)) : ∀ (q : FAAAQueue α), WF q →
    WF (runOps q ops).1 ∧
    toList q ++ enqueuedValues ops =
      ((runOps q ops).2.filterMap id) ++ toList (runOps q ops).1 := by
  induction ops with
  | nil =>
    intro q hq
    exact ⟨hq, by simp [runOps, enqueuedValues]⟩
  | cons op rest ih =>
    intro q hq
    cases op with
    | enq a =>
      have h1 := enqueue_WF q a { protecting := false } hq
      have h2 := enqueue_toList q a { protecting := false } hq
      have h3 := ih _ h1
      rw [runOps]
      refine ⟨h3.1, ?_⟩
      have he : enqueuedValues (Op.enq a :: rest) = a :: enqueuedValues rest := by
        simp [enqueuedValues]
      rw [he, show toList q ++ a :: enqueuedValues rest =
        (toList q ++ [a]) ++ enqueuedValues rest from by simp, ← h2]
      exact h3.2
    | deq =>
      obtain ⟨w1, w2, w3, _⟩ := dequeue_spec q { protecting := false } hq
      have h3 := ih _ w1
      rw [runOps]
      dsimp only []
      refine ⟨h3.1, ?_⟩
      have he : enqueuedValues (Op.deq :: rest) = enqueuedValues rest := by
        simp [enqueuedValues]
      rw [he, List.filterMap_cons]
      show toList q ++ enqueuedValues rest = _
      cases hd : toList q with
      | nil =>
        rw [hd] at w2 w3
        have w2n : (dequeue q { protecting := false }).2.1 = none := w2
        have w3n : toList (dequeue q { protecting := false }).1 = [] := w3
        rw [w2n, ← w3n]
        simpa using h3.2
      | cons b t =>
        rw [hd] at w2 w3
        have w2s : (dequeue q { protecting := false }).2.1 = some b := w2
        have w3s : toList (dequeue q { protecting := false }).1 = t := w3
        rw [w2s]
        show b :: t ++ enqueuedValues rest = _
        have h4 := h3.2
        rw [w3s] at h4
        simp only [id, Option.elim]
        rw [List.cons_append, h4]
        rfl

theorem drainDeq_spec : ∀ (fuel : Nat) (q : FAAAQueue α), WF q →
    (toList q).length < fuel →
    (drainDeq fuel q).1 = toList q ∧ WF (drainDeq fuel q).2 ∧
      toList (drainDeq fuel q).2 = [] := by
  intro fuel
  induction fuel with
  | zero =>
    intro q _ h
    exact absurd h (by omega)
  | succ fuel ih =>
    intro q hq hl
    obtain ⟨w1, w2, w3, _⟩ := dequeue_spec q { protecting := false } hq
    rcases hr : dequeue q { protecting := false } with ⟨q2, o, g⟩
    rw [hr] at w1 w2 w3
    cases hd : toList q with
    | nil =>
      rw [hd] at w2 w3
      have w2n : o = none := w2
      have w3n : toList q2 = [] := w3
      have hstep : drainDeq (fuel + 1) q = ([], q2) := by
        simp only [drainDeq, hr, w2n]
      rw [hstep]
      exact ⟨rfl, w1, w3n⟩
    | cons b t =>
      rw [hd] at w2 w3
      have w2s : o = some b := w2
      have w3s : toList q2 = t := w3
      have hstep : drainDeq (fuel + 1) q =
          (b :: (drainDeq fuel q2).1, (drainDeq fuel q2).2) := by
        simp only [drainDeq, hr, w2s]
      have hlen : (toList q2).length < fuel := by
        rw [w3s]
        have h5 : (toList q).length = t.length + 1 := by rw [hd]; rfl
        omega
      obtain ⟨d1, d2, d3⟩ := ih q2 w1 hlen
      rw [hstep]
      exact ⟨by rw [d1, w3s], d2, d3⟩

theorem runOps_enqs (vals : List α) : ∀ (q : FAAAQueue α), WF q →
    WF (runOps q (vals.map Op.enq)).1 ∧
    (runOps q (vals.map Op.enq)).2 = [] ∧
    toList (runOps q (vals.map Op.enq)).1 = toList q ++ vals := by
  induction vals with
  | nil =>
    intro q hq
    exact ⟨hq, rfl, by simp [runOps]⟩
  | cons a rest ih =>
    intro q hq
    have h1 := enqueue_WF q a { protecting := false } hq
    have h2 := enqueue_toList q a { protecting := false } hq
    obtain ⟨e1, e2, e3⟩ := ih _ h1
    rw [List.map_cons, runOps]
    exact ⟨e1, e2, by rw [e3, h2]; simp⟩

theorem runOps_deqs (N : Nat) : ∀ (q : FAAAQueue α), WF q →
    (runOps q (deqOps N)).2 =
      ((toList q).take N).map some ++
        List.replicate (N - (toList q).length) none := by
  induction N with
  | zero =>
    intro q hq
    simp [deqOps, runOps]
  | succ N ih =>
    intro q hq
    obtain ⟨w1, w2, w3, _⟩ := dequeue_spec q { protecting := false } hq
    have hd : deqOps (N + 1) = (Op.deq : Op α) :: deqOps N := by
      rw [deqOps, List.replicate_succ]
      rfl
    rw [hd, runOps]
    dsimp only []
    cases ht : toList q with
    | nil =>
      rw [ht] at w2 w3
      have w2n : (dequeue q { protecting := false }).2.1 = none := w2
      have w3n : toList (dequeue q { protecting := false }).1 = [] := w3
      have h6 := ih _ w1
      rw [w2n, h6, w3n]
      simp [List.replicate_succ]
    | cons b t =>
      rw [ht] at w2 w3
      have w2s : (dequeue q { protecting := false }).2.1 = some b := w2
      have w3s : toList (dequeue q { protecting := false }).1 = t := w3
      have h6 := ih _ w1
      rw [w2s, h6, w3s]
      rw [List.take_succ_cons, List.map_cons]
      have h7 : (N + 1) - (b :: t).length = N - t.length := by
        have : (b :: t).length = t.length + 1 := rfl
        omega
      rw [h7]
      rfl

/-- C1: FIFO order.  A single thread enqueues the values 1..N in order into a
fresh queue and then dequeues N times; every dequeue returns Some and the
returned values are 1..N in the same order.  The statement holds for every
N at or above 1 (the witness instantiates it at N = 2 * BUFFER_SIZE = 2048,
which forces two segment-chain extensions; N = BUFFER_SIZE is the instance
at 1024, which forces one). -/
theorem fifo_order (N : Nat) (h1 : 1 ≤ N) :
    (runOps FAAAQueue.new (enqOps N ++ deqOps N)).2 =
      (List.range N).map (fun i => some (i + 1)) := by
  have henq : enqOps N = ((List.range N).map (fun i => i + 1)).map Op.enq := by
    rw [enqOps, List.map_map]
    rfl
  obtain ⟨e1, e2, e3⟩ := runOps_enqs ((List.range N).map (fun i => i + 1))
    FAAAQueue.new WF_new
  rw [toList_new, List.nil_append] at e3
  have happ : ∀ (q : FAAAQueue Nat) (l1 l2 : List (Op Nat)),
      runOps q (l1 ++ l2) =
        ((runOps (runOps q l1).1 l2).1,
          (runOps q l1).2 ++ (runOps (runOps q l1).1 l2).2) := by
    intro q l1
    induction l1 generalizing q with
    | nil => intro l2; simp [runOps]
    | cons op rest ih =>
      intro l2
      cases op with
      | enq a => rw [List.cons_append, runOps, runOps, ih]
      | deq =>
        rw [List.cons_append, runOps, runOps]
        dsimp only []
        rw [ih]
        rfl
  rw [henq, happ, e2, List.nil_append, runOps_deqs N _ e1, e3]
  have hlen : ((List.range N).map (fun i => i + 1)).length = N := by simp
  rw [List.take_of_length_le (le_of_eq hlen)]
  rw [show N - ((List.range N).map (fun i => i + 1)).length = 0 from by rw [hlen]; omega]
  rw [List.replicate_zero, List.append_nil, List.map_map]
  rfl

/-- Witness for C1 at N = 2 * BUFFER_SIZE = 2048: enqueueing 1..2048 and then
dequeueing 2048 times returns Some 1, ..., Some 2048 in order, exercising two
segment-chain extensions.  (N = BUFFER_SIZE = 1024 is the same theorem at
1024.) -/
theorem fifo_order_witness :
    (runOps FAAAQueue.new (enqOps (2 * BUFFER_SIZE) ++ deqOps (2 * BUFFER_SIZE))).2 =
      (List.range (2 * BUFFER_SIZE)).map (fun i => some (i + 1)) :=
  fifo_order (2 * BUFFER_SIZE) (by decide)

/-- C2: multiset conservation.  For every finite sequence of interleaved
enqueue and dequeue calls, followed by repeated dequeues until a dequeue
returns empty, the values enqueued are exactly the values returned by the
interleaved dequeues followed by the drained values — as lists, hence in
particular as multisets (no value is lost, none is returned twice), and the
draining phase ends with a dequeue that returns the empty result. -/
theorem multiset_conservation (ops : List (Op Nat)) :
    enqueuedValues ops =
      ((runOps FAAAQueue.new ops).2.filterMap id) ++
        (drainDeq ((toList (runOps FAAAQueue.new ops).1).length + 1)
          (runOps FAAAQueue.new ops).1).1 ∧
    ((enqueuedValues ops : List Nat) : Multiset Nat) =
      (((runOps FAAAQueue.new ops).2.filterMap id : List Nat) : Multiset Nat) +
        ((drainDeq ((toList (runOps FAAAQueue.new ops).1).length + 1)
          (runOps FAAAQueue.new ops).1).1 : Multiset Nat) ∧
    (dequeue (drainDeq ((toList (runOps FAAAQueue.new ops).1).length + 1)
        (runOps FAAAQueue.new ops).1).2 { protecting := false }).2.1 = none := by
  obtain ⟨r1, r2⟩ := runOps_invariant ops FAAAQueue.new WF_new
  rw [toList_new, List.nil_append] at r2
  obtain ⟨d1, d2, d3⟩ := drainDeq_spec
    ((toList (runOps FAAAQueue.new ops).1).length + 1)
    (runOps FAAAQueue.new ops).1 r1 (by omega)
  have hmain : enqueuedValues ops =
      ((runOps FAAAQueue.new ops).2.filterMap id) ++
        (drainDeq ((toList (runOps FAAAQueue.new ops).1).length + 1)
          (runOps FAAAQueue.new ops).1).1 := by
    rw [d1]
    exact r2
  refine ⟨hmain, ?_, ?_⟩
  · rw [hmain, Multiset.coe_add]
  · obtain ⟨_, w2, _, _⟩ := dequeueLoop_spec _ d2
    rw [d3] at w2
    exact w2

/-! Claims about guard release, teardown, holes and enqueue totality. -/

/-- C3 counterexample: the claim that the hazard guard protection is reset
before every return of dequeue is false on the code.  On a queue holding one
item, dequeue returns Some 7, and the guard comes back with the protection
still set: the item return path of the source (line 127) returns without
calling hp.reset_protection(). -/
theorem guard_left_set_on_item_return :
    (dequeue ({ chain := [Node.new 7], tailIdx := 0 } : FAAAQueue Nat)
      { protecting := false }).2.1 = some 7 ∧
    (dequeue ({ chain := [Node.new 7], tailIdx := 0 } : FAAAQueue Nat)
      { protecting := false }).2.2 = { protecting := true } := by
  have hwf : WF ({ chain := [Node.new 7], tailIdx := 0 } : FAAAQueue Nat) := by
    refine ⟨by simp, rfl, ?_, ?_, ?_⟩
    · intro n hn
      rw [List.mem_singleton] at hn
      rw [hn]
      exact NodeWF_new 7
    · intro i hi
      exact absurd hi (by simp)
    · intro i hi0
      show (([Node.new 7] : List (Node Nat)).getD i Node.emptyNode).dequeue_index = 0
      rcases Nat.lt_or_ge i 1 with h | h
      · omega
      · rw [List.getD_eq_default _ _ (by simpa using h)]
        rfl
  have htl : toList ({ chain := [Node.new 7], tailIdx := 0 } : FAAAQueue Nat) = [7] := by
    show ([Node.new 7] : List (Node Nat)).flatMap Node.items = [7]
    rw [List.flatMap_cons, List.flatMap_nil, Node.items_new, List.append_nil]
  obtain ⟨_, w2, _, w4⟩ := dequeue_spec _ { protecting := false } hwf
  rw [htl] at w2
  refine ⟨w2, ?_⟩
  rw [w4, w2]
  rfl

/-- C3 amended: the engine resets the guard protection before enqueue
returns and before dequeue returns the empty result, but NOT when dequeue
returns an item — on that path the guard is still protecting when the call
returns. -/
theorem guard_release_on_returns (q : FAAAQueue α) (a : α)
    (g1 g2 : HazardPointer) (hq : WF q) :
    (enqueue q a g1).2 = { protecting := false } ∧
    ((dequeue q g2).2.1 = none → (dequeue q g2).2.2 = { protecting := false }) ∧
    (∀ b, (dequeue q g2).2.1 = some b →
      (dequeue q g2).2.2 = { protecting := true }) := by
  obtain ⟨_, _, _, w4⟩ := dequeue_spec q g2 hq
  refine ⟨enqueue_guard q a g1 hq, ?_, ?_⟩
  · intro hnone
    rw [w4, hnone]
    rfl
  · intro b hsome
    rw [w4, hsome]
    rfl

/-- Witness for the amended C3, on a fresh queue. -/
theorem guard_release_on_returns_witness :
    (enqueue (FAAAQueue.new : FAAAQueue Nat) 0 { protecting := true }).2 =
      { protecting := false } ∧
    ((dequeue (FAAAQueue.new : FAAAQueue Nat) { protecting := true }).2.1 = none →
      (dequeue (FAAAQueue.new : FAAAQueue Nat) { protecting := true }).2.2 =
        { protecting := false }) ∧
    (∀ b, (dequeue (FAAAQueue.new : FAAAQueue Nat) { protecting := true }).2.1 =
        some b →
      (dequeue (FAAAQueue.new : FAAAQueue Nat) { protecting := true }).2.2 =
        { protecting := true }) :=
  guard_release_on_returns FAAAQueue.new 0 { protecting := true }
    { protecting := true } WF_new

theorem dropLoop_count (l : List (Node α)) : (dropLoop l).2 = l.length := by
  induction l with
  | nil => rfl
  | cons n rest ih =>
    show (dropLoop rest).2 + 1 = rest.length + 1
    rw [ih]

theorem filter_nonnull (l : List (Slot α)) (h : ∀ s ∈ l, s ≠ Slot.taken) :
    l.filter (fun s => ! s.isNull) = (l.filterMap Slot.curItem).map Slot.occupied := by
  induction l with
  | nil => rfl
  | cons s rest ih =>
    have hs := h s (by simp)
    have hrest : ∀ s2 ∈ rest, s2 ≠ Slot.taken :=
      fun s2 hs2 => h s2 (List.mem_cons_of_mem _ hs2)
    rw [List.filter_cons, List.filterMap_cons]
    cases s with
    | empty =>
      rw [if_neg (show ¬ ((! (Slot.empty : Slot α).isNull) = true) from
        fun hc => Bool.noConfusion hc),
        show Slot.curItem (Slot.empty : Slot α) = none from rfl]
      exact ih hrest
    | occupied b =>
      rw [if_pos (by rfl), show Slot.curItem (Slot.occupied b) = some b from rfl,
        List.map_cons, ih hrest]
    | taken => exact absurd rfl hs

theorem reclaimables_eq (n : Node α) (hwf : NodeWF n) (hd : n.dequeue_index = 0) :
    n.reclaimables = n.items.map Slot.occupied := by
  rw [Node.reclaimables, Node.items]
  apply filter_nonnull
  intro s hs hsTaken
  obtain ⟨j, hj, rfl⟩ := List.mem_iff_getElem.mp hs
  have h2 := hwf.taken_lt j (by rw [List.getD_eq_getElem _ _ hj]; exact hsTaken)
  omega

theorem dropLoop_items (l : List (Node α))
    (h : ∀ n ∈ l, NodeWF n ∧ n.dequeue_index = 0) :
    (dropLoop l).1 = (l.flatMap Node.items).map Slot.occupied := by
  induction l with
  | nil => rfl
  | cons n rest ih =>
    obtain ⟨h1, h2⟩ := h n (by simp)
    show n.reclaimables ++ (dropLoop rest).1 = _
    rw [List.flatMap_cons, List.map_append, reclaimables_eq n h1 h2,
      ih (fun n2 hn2 => h n2 (by simp [hn2]))]

/-- C4: teardown completeness beyond the head segment.  On destruction of a
well-formed queue, the destructor walk frees, for every segment strictly
after the head, exactly the Occupied items of that segment (in slot order)
before freeing the segment, and the number of segments freed is the whole
chain (the head is freed directly, each linked segment is freed by the
loop).  No item resident beyond the head segment is leaked: the freed values
are exactly the items of the chain beyond the head. -/
theorem teardown_beyond_head (q : FAAAQueue α) (hq : WF q) :
    (dropQueue q).1 = ((q.chain.drop 1).flatMap Node.items).map Slot.occupied ∧
    (dropQueue q).2 = q.chain.length := by
  constructor
  · show (dropLoop (q.chain.drop 1)).1 = _
    apply dropLoop_items
    intro n hn
    refine ⟨hq.nodes n (List.mem_of_mem_drop hn), ?_⟩
    obtain ⟨j, hj, rfl⟩ := List.mem_iff_getElem.mp hn
    rw [List.getElem_drop]
    have h3 := hq.deq0 (1 + j) (by omega)
    rw [List.getD_eq_getElem _ _ (by rw [List.length_drop] at hj; omega)] at h3
    exact h3
  · show (dropLoop (q.chain.drop 1)).2 + 1 = _
    rw [dropLoop_count, List.length_drop]
    have h4 : 0 < q.chain.length := List.length_pos.mpr hq.ne
    omega

/-- Witness for C4 on a chain of two segments: a fully drained head segment
followed by a seeded segment holding the item 9; the destructor frees
exactly the occupied value 9 of the second segment and frees both
segments. -/
theorem teardown_beyond_head_witness :
    (dropQueue ({ chain := [Node.drained, Node.new 9], tailIdx := 1 } :
      FAAAQueue Nat)).1 =
      ((([Node.drained, Node.new 9] : List (Node Nat)).drop 1).flatMap
        Node.items).map Slot.occupied ∧
    (dropQueue ({ chain := [Node.drained, Node.new 9], tailIdx := 1 } :
      FAAAQueue Nat)).2 = 2 := by
  have hdwf : NodeWF (Node.drained : Node Nat) := by
    refine ⟨by simp [Node.drained], ?_, ?_, ?_⟩
    · intro j hj
      have hj2 : BUFFER_SIZE + 1 ≤ j := hj
      show (List.replicate BUFFER_SIZE (Slot.taken : Slot Nat)).getD j (Slot.empty) =
        Slot.empty
      rw [getD_replicate, if_neg (by omega)]
    · intro j _ hj2
      have hj3 : j < (List.replicate BUFFER_SIZE (Slot.taken : Slot Nat)).length := hj2
      rw [List.length_replicate] at hj3
      show (List.replicate BUFFER_SIZE (Slot.taken : Slot Nat)).getD j (Slot.empty) =
        Slot.taken
      rw [getD_replicate, if_pos hj3]
    · intro j hj
      show j < BUFFER_SIZE + 1
      have hj2 : (List.replicate BUFFER_SIZE (Slot.taken : Slot Nat)).getD j
          (Slot.empty) = Slot.taken := hj
      rw [getD_replicate] at hj2
      revert hj2
      split
      · intro _
        omega
      · intro hj2
        exact Slot.noConfusion hj2
  have hwf : WF ({ chain := [Node.drained, Node.new 9], tailIdx := 1 } :
      FAAAQueue Nat) := by
    refine ⟨by simp, rfl, ?_, ?_, ?_⟩
    · intro n hn
      rw [List.mem_cons, List.mem_singleton] at hn
      rcases hn with h | h
      · rw [h]
        exact hdwf
      · rw [h]
        exact NodeWF_new 9
    · intro i hi
      have hii : i + 1 < 2 := hi
      have hi2 : i = 0 := by omega
      rw [hi2]
      show BUFFER_SIZE + 1 ≤ (Node.drained : Node Nat).enqueue_index
      rw [Node.drained]
    · intro i hi0
      rcases Nat.lt_or_ge i 2 with h | h
      · have hi1 : i = 1 := by omega
        rw [hi1]
        rfl
      · show (_ : Node Nat).dequeue_index = 0
        rw [List.getD_eq_default _ _ (by simpa using h)]
        rfl
  have h2 := teardown_beyond_head _ hwf
  exact ⟨h2.1, h2.2⟩

/-- C6: hole tolerance.  If the emptiness test fails, the reserved index is
in bounds, and the swap on that slot finds the prior value null (a hole left
by a producer that reserved the index but never published), then the dequeue
loop marks the slot with the sentinel and retries on the resulting state —
it does not return.  Moreover dequeue never returns empty while an item is
still present: on every well-formed state whose abstraction is nonempty
(holes included), dequeue returns Some of the oldest item. -/
theorem dequeue_hole_tolerance (q : FAAAQueue α) (g : HazardPointer) (hq : WF q)
    (hchk : ¬ ((q.chain.getD 0 Node.emptyNode).enqueue_index ≤ (q.chain.getD 0 Node.emptyNode).dequeue_index ∧ q.chain.length ≤ 1))
    (hin : (q.chain.getD 0 Node.emptyNode).dequeue_index ≤ BUFFER_SIZE - 1)
    (hhole : (q.chain.getD 0 Node.emptyNode).array.getD ((q.chain.getD 0 Node.emptyNode).dequeue_index) (Slot.empty) = Slot.empty) :
    dequeueLoop q = dequeueLoop
      ({ chain := q.chain.set 0
           { enqueue_index := (q.chain.getD 0 Node.emptyNode).enqueue_index
             dequeue_index := (q.chain.getD 0 Node.emptyNode).dequeue_index + 1
             array := (q.chain.getD 0 Node.emptyNode).array.set
               ((q.chain.getD 0 Node.emptyNode).dequeue_index) (Slot.taken) }
         tailIdx := q.tailIdx } : FAAAQueue α) ∧
    (toList q ≠ [] → ∃ b, (dequeue q g).2.1 = some b ∧
      some b = (toList q).head?) := by
  constructor
  · conv_lhs => rw [dequeueLoop]
    dsimp only []
    rw [dif_neg hchk, dif_neg (Nat.not_lt.mpr hin)]
    split
    · rw [List.set_set]
    · rename_i c heq2
      rw [hhole] at heq2
      exact Slot.noConfusion heq2
    · rename_i heq2
      rw [hhole] at heq2
      exact Slot.noConfusion heq2
  · intro hne
    obtain ⟨_, w2, _, _⟩ := dequeue_spec q g hq
    cases ht : toList q with
    | nil => exact absurd ht hne
    | cons b t =>
      rw [ht] at w2
      exact ⟨b, w2, rfl⟩

/-- Witness for C6: a queue whose head segment has a hole at slot 0 (below
the enqueue cursor 2) and the item 5 at slot 1.  Dequeue does not report
emptiness: it skips the hole and returns Some 5. -/
theorem dequeue_hole_tolerance_witness :
    (dequeue ({ chain := [Node.holey], tailIdx := 0 } : FAAAQueue Nat)
      { protecting := false }).2.1 = some 5 := by
  have hwfn : NodeWF Node.holey := by
    refine ⟨by simp [Node.holey], ?_, ?_, ?_⟩
    · intro j hj
      have hj2 : 2 ≤ j := hj
      show ((List.replicate BUFFER_SIZE (Slot.empty : Slot Nat)).set 1
        (Slot.occupied 5)).getD j (Slot.empty) = Slot.empty
      rw [getD_set, if_neg (fun hc => by omega), getD_replicate]
      split <;> rfl
    · intro j hj _
      have hj2 : j < (0 : Nat) := hj
      omega
    · intro j hj
      have hj2 : ((List.replicate BUFFER_SIZE (Slot.empty : Slot Nat)).set 1
          (Slot.occupied 5)).getD j (Slot.empty) = Slot.taken := hj
      show j < (0 : Nat)
      rw [getD_set] at hj2
      revert hj2
      split
      · intro hj2
        exact Slot.noConfusion hj2
      · rw [getD_replicate]
        split
        · intro hj2
          exact Slot.noConfusion hj2
        · intro hj2
          exact Slot.noConfusion hj2
  have hwf : WF ({ chain := [Node.holey], tailIdx := 0 } : FAAAQueue Nat) := by
    refine ⟨by simp, rfl, ?_, ?_, ?_⟩
    · intro n hn
      rw [List.mem_singleton] at hn
      rw [hn]
      exact hwfn
    · intro i hi
      have hi2 : i + 1 < 1 := hi
      omega
    · intro i hi0
      rcases Nat.lt_or_ge i 1 with h | h
      · omega
      · show (_ : Node Nat).dequeue_index = 0
        rw [List.getD_eq_default _ _ (by simpa using h)]
        rfl
  have htl : toList ({ chain := [Node.holey], tailIdx := 0 } : FAAAQueue Nat) =
      [5] := by
    show ([Node.holey] : List (Node Nat)).flatMap Node.items = [5]
    rw [List.flatMap_cons, List.flatMap_nil, List.append_nil]
    show ((List.replicate BUFFER_SIZE (Slot.empty : Slot Nat)).set 1
      (Slot.occupied 5)).filterMap Slot.curItem = [5]
    rw [show (List.replicate BUFFER_SIZE (Slot.empty : Slot Nat)) =
      Slot.empty :: Slot.empty :: List.replicate 1022 (Slot.empty) from rfl]
    rw [show ((Slot.empty : Slot Nat) :: Slot.empty ::
      List.replicate 1022 (Slot.empty)).set 1 (Slot.occupied 5) =
      Slot.empty :: Slot.occupied 5 :: List.replicate 1022 (Slot.empty) from rfl]
    rw [List.filterMap_cons, List.filterMap_cons, filterMap_curItem_replicate]
    rfl
  obtain ⟨hskip, hfind⟩ := dequeue_hole_tolerance _ { protecting := false } hwf
    (by
      intro hc
      have hc1 : (2 : Nat) ≤ 0 := hc.1
      omega)
    (by
      show (0 : Nat) ≤ BUFFER_SIZE - 1
      omega)
    (by
      show ((List.replicate BUFFER_SIZE (Slot.empty : Slot Nat)).set 1
        (Slot.occupied 5)).getD 0 (Slot.empty) = Slot.empty
      rw [getD_set, if_neg (fun hc => by omega), getD_replicate]
      rw [if_pos (by simp [BUFFER_SIZE])])
  obtain ⟨b, hb, hbh⟩ := hfind (by rw [htl]; intro hc; exact List.noConfusion hc)
  rw [htl] at hbh
  rw [hb]
  rw [show b = 5 from Option.some.inj hbh]

/-- C8: enqueue always completes and never reports fullness.  The enqueue
function is total: on every well-formed state it returns a new state and a
guard, with no failure channel in its type.  The item lands in exactly one
slot: either the in-bounds slot of the current tail segment selected by the
enqueue cursor (when that cursor is within bounds), or slot 0 of a freshly
linked seeded segment whose enqueue cursor starts at 1 (when the tail
segment is full). -/
theorem enqueue_total_install (q : FAAAQueue α) (a : α) (g : HazardPointer)
    (hq : WF q) :
    ((q.chain.getD q.tailIdx Node.emptyNode).enqueue_index ≤ BUFFER_SIZE - 1 ∧
      enqueue q a g =
        (({ chain := q.chain.set q.tailIdx
              { enqueue_index := (q.chain.getD q.tailIdx Node.emptyNode).enqueue_index + 1
                dequeue_index := (q.chain.getD q.tailIdx Node.emptyNode).dequeue_index
                array := (q.chain.getD q.tailIdx Node.emptyNode).array.set
                  ((q.chain.getD q.tailIdx Node.emptyNode).enqueue_index) (Slot.occupied a) }
            tailIdx := q.tailIdx } : FAAAQueue α),
          { protecting := false })) ∨
    (BUFFER_SIZE - 1 < (q.chain.getD q.tailIdx Node.emptyNode).enqueue_index ∧
      enqueue q a g =
        (({ chain := (q.chain.set q.tailIdx
              { enqueue_index := (q.chain.getD q.tailIdx Node.emptyNode).enqueue_index + 1
                dequeue_index := (q.chain.getD q.tailIdx Node.emptyNode).dequeue_index
                array := (q.chain.getD q.tailIdx Node.emptyNode).array }) ++ [Node.new a]
            tailIdx := q.chain.length } : FAAAQueue α),
          { protecting := false }) ∧
      (Node.new a).enqueue_index = 1 ∧
      (Node.new a).array.getD 0 (Slot.empty) = Slot.occupied a) := by
  rcases Nat.lt_or_ge (BUFFER_SIZE - 1) ((q.chain.getD q.tailIdx Node.emptyNode).enqueue_index) with hfl | hin
  · right
    refine ⟨hfl, ?_, rfl, ?_⟩
    · rw [enqueue, enqueueLoop_append q a hq hfl]
    · show ((List.replicate BUFFER_SIZE (Slot.empty)).set 0
        (Slot.occupied a)).getD 0 (Slot.empty) = Slot.occupied a
      rw [getD_set,
        if_pos ⟨rfl, by rw [List.length_replicate]; decide⟩]
  · left
    exact ⟨hin, by rw [enqueue, enqueueLoop_install q a hq hin]⟩

/-- Witness for C8 on a fresh queue: the theorem instantiated at
FAAAQueue.new with item 3 (the in-bounds branch of the disjunction holds
there: the item lands in slot 0 of the sentinel segment). -/
theorem enqueue_total_install_witness :
    (((FAAAQueue.new : FAAAQueue Nat).chain.getD (FAAAQueue.new : FAAAQueue Nat).tailIdx Node.emptyNode).enqueue_index ≤ BUFFER_SIZE - 1 ∧
      enqueue (FAAAQueue.new : FAAAQueue Nat) 3 { protecting := true } =
        (({ chain := (FAAAQueue.new : FAAAQueue Nat).chain.set (FAAAQueue.new : FAAAQueue Nat).tailIdx
              { enqueue_index := ((FAAAQueue.new : FAAAQueue Nat).chain.getD (FAAAQueue.new : FAAAQueue Nat).tailIdx Node.emptyNode).enqueue_index + 1
                dequeue_index := ((FAAAQueue.new : FAAAQueue Nat).chain.getD (FAAAQueue.new : FAAAQueue Nat).tailIdx Node.emptyNode).dequeue_index
                array := ((FAAAQueue.new : FAAAQueue Nat).chain.getD (FAAAQueue.new : FAAAQueue Nat).tailIdx Node.emptyNode).array.set
                  (((FAAAQueue.new : FAAAQueue Nat).chain.getD (FAAAQueue.new : FAAAQueue Nat).tailIdx Node.emptyNode).enqueue_index) (Slot.occupied 3) }
            tailIdx := (FAAAQueue.new : FAAAQueue Nat).tailIdx } : FAAAQueue Nat),
          { protecting := false })) ∨
    (BUFFER_SIZE - 1 < ((FAAAQueue.new : FAAAQueue Nat).chain.getD (FAAAQueue.new : FAAAQueue Nat).tailIdx Node.emptyNode).enqueue_index ∧
      enqueue (FAAAQueue.new : FAAAQueue Nat) 3 { protecting := true } =
        (({ chain := ((FAAAQueue.new : FAAAQueue Nat).chain.set (FAAAQueue.new : FAAAQueue Nat).tailIdx
              { enqueue_index := ((FAAAQueue.new : FAAAQueue Nat).chain.getD (FAAAQueue.new : FAAAQueue Nat).tailIdx Node.emptyNode).enqueue_index + 1
                dequeue_index := ((FAAAQueue.new : FAAAQueue Nat).chain.getD (FAAAQueue.new : FAAAQueue Nat).tailIdx Node.emptyNode).dequeue_index
                array := ((FAAAQueue.new : FAAAQueue Nat).chain.getD (FAAAQueue.new : FAAAQueue Nat).tailIdx Node.emptyNode).array }) ++ [Node.new 3]
            tailIdx := (FAAAQueue.new : FAAAQueue Nat).chain.length } : FAAAQueue Nat),
          { protecting := false }) ∧
      (Node.new 3).enqueue_index = 1 ∧
      (Node.new (3 : Nat)).array.getD 0 (Slot.empty) = Slot.occupied 3) :=
  enqueue_total_install (FAAAQueue.new : FAAAQueue Nat) 3 { protecting := true } WF_new


/-! Lemmas about the concurrent arena accessors. -/

theorem length_setNode (sh : Shared α) (i : Nat) (n : CNode α) :
    (sh.setNode i n).segs.length = sh.segs.length := by
  show (sh.segs.set i n).length = sh.segs.length
  exact List.length_set sh.segs i n

theorem node_setNode (sh : Shared α) (i : Nat) (n : CNode α) (i2 : Nat) :
    (sh.setNode i n).node i2 =
      if i = i2 ∧ i2 < sh.segs.length then n else sh.node i2 := by
  show (sh.segs.set i n).getD i2 CNode.emptyC = _
  exact getD_set sh.segs i i2 n CNode.emptyC

theorem node_append (sh : Shared α) (x : CNode α) (i : Nat) :
    ({ sh with segs := sh.segs ++ [x] } : Shared α).node i =
      if i < sh.segs.length then sh.node i
      else if i = sh.segs.length then x else CNode.emptyC := by
  show (sh.segs ++ [x]).getD i CNode.emptyC = _
  rcases Nat.lt_trichotomy i sh.segs.length with hi | hi | hi
  · rw [if_pos hi, List.getD_eq_getElem _ _ (by simp; omega), List.getElem_append_left hi]
    rw [Shared.node, List.getD_eq_getElem _ _ hi]
  · rw [if_neg (by omega), if_pos hi]
    rw [List.getD_eq_getElem _ _ (by simp; omega)]
    rw [List.getElem_append_right (by omega)]
    simp [hi]
  · rw [if_neg (by omega), if_neg (by omega)]
    exact List.getD_eq_default _ _ (by simp; omega)

theorem node_oob (sh : Shared α) (i : Nat) (hi : sh.segs.length ≤ i) :
    sh.node i = CNode.emptyC :=
  List.getD_eq_default _ _ hi

theorem slot_oob (sh : Shared α) (i j : Nat) (hi : sh.segs.length ≤ i) :
    sh.slot i j = Slot.empty := by
  show (sh.node i).slots.getD j (Slot.empty) = Slot.empty
  rw [node_oob sh i hi]
  show ((List.replicate BUFFER_SIZE (Slot.empty)).getD j (Slot.empty) : Slot α) = Slot.empty
  rw [getD_replicate]
  split <;> rfl

theorem slot_setNode_same_slots (sh : Shared α) (lt : Nat) (n : CNode α)
    (hs : n.slots = (sh.node lt).slots) (i j : Nat) :
    (sh.setNode lt n).slot i j = sh.slot i j := by
  show ((sh.setNode lt n).node i).slots.getD j (Slot.empty) = (sh.node i).slots.getD j (Slot.empty)
  rw [node_setNode]
  split
  · rename_i hc
    rw [hs, hc.1]
  · rfl

theorem slot_setNode_set (sh : Shared α) (lt j0 : Nat) (v : Slot α) (i j : Nat) :
    (sh.setNode lt { sh.node lt with slots := (sh.node lt).slots.set j0 v }).slot i j =
      if lt = i ∧ i < sh.segs.length ∧ j0 = j ∧ j < (sh.node lt).slots.length then v
      else sh.slot i j := by
  show ((sh.setNode lt _).node i).slots.getD j (Slot.empty) = _
  rw [node_setNode]
  split
  · rename_i hc
    show ((sh.node lt).slots.set j0 v).getD j (Slot.empty) = _
    rw [getD_set]
    split
    · rename_i hc2
      rw [if_pos ⟨hc.1, hc.2, hc2.1, hc2.2⟩]
    · rename_i hc2
      rw [if_neg (fun hx => hc2 ⟨hx.2.2.1, hx.2.2.2⟩), hc.1]
      rfl
  · rename_i hc
    rw [if_neg (fun hx => hc ⟨hx.1, hx.2.1⟩)]
    rfl

theorem slot_append (sh : Shared α) (x : CNode α) (i j : Nat) :
    ({ sh with segs := sh.segs ++ [x] } : Shared α).slot i j =
      if i < sh.segs.length then sh.slot i j
      else if i = sh.segs.length then x.slots.getD j (Slot.empty)
      else Slot.empty := by
  show (({ sh with segs := sh.segs ++ [x] } : Shared α).node i).slots.getD j (Slot.empty) = _
  rw [node_append]
  split
  · rfl
  · split
    · rfl
    · show ((List.replicate BUFFER_SIZE (Slot.empty)).getD j (Slot.empty) : Slot α) = Slot.empty
      rw [getD_replicate]
      split <;> rfl

theorem seeded_slot (a : α) (j : Nat) :
    (CNode.seeded a).slots.getD j (Slot.empty) =
      if j = 0 then Slot.occupied a else Slot.empty := by
  show ((List.replicate BUFFER_SIZE (Slot.empty)).set 0 (Slot.occupied a)).getD j (Slot.empty) = _
  rw [getD_set, List.length_replicate]
  by_cases hj : j = 0
  · rw [if_pos ⟨hj.symm, by rw [hj]; decide⟩, if_pos hj]
  · rw [if_neg (fun hx => hj hx.1.symm), if_neg hj, getD_replicate]
    split <;> rfl

/-! Per-step analysis of the slot values. -/

theorem tstep_slot {st st2 : TState α} {sh sh2 : Shared α}
    (h : TStep st sh st2 sh2) (i j : Nat) :
    SlotTransOK (sh.slot i j) (sh2.slot i j) := by
  cases h with
  | start_enq a sh => exact Or.inl rfl
  | enq_load a sh => exact Or.inl rfl
  | enq_faa_in a lt sh h =>
      refine Or.inl ?_
      refine slot_setNode_same_slots sh lt _ ?_ i j
      rfl
  | enq_faa_full a lt sh h =>
      refine Or.inl ?_
      refine slot_setNode_same_slots sh lt _ ?_ i j
      rfl
  | enq_cas_ok a lt idx sh h =>
      rw [slot_setNode_set]
      split
      · rename_i hc
        refine Or.inr (Or.inl ⟨?_, a, rfl⟩)
        rw [← hc.1, ← hc.2.2.1]
        exact h
      · exact Or.inl rfl
  | enq_cas_fail a lt idx sh h => exact Or.inl rfl
  | enq_chk_moved a lt sh h => exact Or.inl rfl
  | enq_chk_same a lt sh h => exact Or.inl rfl
  | enq_next_null a lt sh h =>
      rw [slot_append]
      split
      · exact Or.inl rfl
      · rename_i hge
        split
        · rename_i heq
          rw [seeded_slot]
          split
          · exact Or.inr (Or.inl ⟨slot_oob sh i j (by omega), a, rfl⟩)
          · exact Or.inl (slot_oob sh i j (by omega)).symm
        · rename_i heq
          exact Or.inl (slot_oob sh i j (by omega)).symm
  | enq_next_some a lt nx sh h => exact Or.inl rfl
  | enq_link_ok a lt nw sh h =>
      refine Or.inl ?_
      refine slot_setNode_same_slots sh lt _ ?_ i j
      rfl
  | enq_link_fail a lt nw sh h => exact Or.inl rfl
  | enq_adv_ok a lt nw sh h => exact Or.inl rfl
  | enq_adv_fail a lt nw sh h => exact Or.inl rfl
  | enq_help_ok a lt nx sh h => exact Or.inl rfl
  | enq_help_fail a lt nx sh h => exact Or.inl rfl
  | start_deq sh => exact Or.inl rfl
  | deq_load sh => exact Or.inl rfl
  | deq_chkd lh sh => exact Or.inl rfl
  | deq_chke_lt lh ld sh h => exact Or.inl rfl
  | deq_chke_ge lh ld sh h => exact Or.inl rfl
  | deq_chkn_null lh sh h => exact Or.inl rfl
  | deq_chkn_some lh nx sh h => exact Or.inl rfl
  | deq_faa_in lh sh h =>
      refine Or.inl ?_
      refine slot_setNode_same_slots sh lh _ ?_ i j
      rfl
  | deq_faa_drained lh sh h =>
      refine Or.inl ?_
      refine slot_setNode_same_slots sh lh _ ?_ i j
      rfl
  | deq_swap_empty lh idx sh h =>
      rw [slot_setNode_set]
      split
      · rename_i hc
        refine Or.inr (Or.inr (Or.inl ⟨?_, rfl⟩))
        rw [← hc.1, ← hc.2.2.1]
        exact h
      · exact Or.inl rfl
  | deq_swap_occ lh idx a sh h =>
      rw [slot_setNode_set]
      split
      · rename_i hc
        refine Or.inr (Or.inr (Or.inr ⟨a, ?_, rfl⟩))
        rw [← hc.1, ← hc.2.2.1]
        exact h
      · exact Or.inl rfl
  | deq_next_null lh sh h => exact Or.inl rfl
  | deq_next_some lh nx sh h => exact Or.inl rfl
  | deq_adv_ok lh nx sh h => exact Or.inl rfl
  | deq_adv_fail lh nx sh h => exact Or.inl rfl
  | finish r sh => exact Or.inl rfl

/-- C5: slot state machine.  Every atomic step of any thread either leaves a
slot unchanged or performs one of the three legal transitions Empty to
Occupied (producer CAS), Occupied to Taken (consumer swap yielding the
item), Empty to Taken (consumer swap on a hole); and once a slot is Taken it
stays Taken over any sequence of steps. -/
theorem slot_state_machine :
    (∀ (c c2 : Config α), Step c c2 → ∀ i j,
      SlotTransOK (c.sh.slot i j) (c2.sh.slot i j)) ∧
    (∀ (c c2 : Config α), Relation.ReflTransGen Step c c2 → ∀ i j,
      c.sh.slot i j = Slot.taken → c2.sh.slot i j = Slot.taken) := by
  constructor
  · intro c c2 hs i j
    obtain ⟨tid, hT, _⟩ := hs
    exact tstep_slot hT i j
  · intro c c2 hr i j htk
    induction hr with
    | refl => exact htk
    | tail hab hs ih =>
        obtain ⟨tid, hT, _⟩ := hs
        have htr : _ ∨ _ ∨ _ ∨ _ := tstep_slot hT i j
        rcases htr with he | ⟨ho, _⟩ | ⟨ho, hn⟩ | ⟨a, ho, hn⟩
        · rw [he]
          exact ih
        · rw [ih] at ho
          exact Slot.noConfusion ho
        · exact hn
        · exact hn

/-- Witness for C5: the first conjunct instantiated at the concrete step in
which thread 0 enters dequeue from the initial configuration, at slot 0 of
segment 0. -/
theorem slot_state_machine_witness :
    SlotTransOK ((Config.init : Config Nat).sh.slot 0 0)
      ((initDeqLoad : Config Nat).sh.slot 0 0) := by
  apply slot_state_machine.1 Config.init initDeqLoad
  refine ⟨0, ?_, ?_⟩
  · exact TStep.start_deq Shared.init
  · intro t ht
    show (if t = 0 then TState.deqLoad else TState.idle) = TState.idle
    rw [if_neg ht]

/-! Preservation of the concurrent invariant by every atomic step. -/

theorem CInv_tstep {st st2 : TState α} {sh sh2 : Shared α}
    (hT : TStep st sh st2 sh2)
    (hheadLt : sh.head < sh.segs.length)
    (htailLt : sh.tail < sh.segs.length)
    (hnextI : ∀ i m, (sh.node i).next = some m → i < m ∧ m < sh.segs.length)
    (hloc : TLocalsOK sh st)
    (htaken : ∀ i j, sh.slot i j = Slot.taken → i ≤ sh.head) :
    (sh.segs.length ≤ sh2.segs.length) ∧
    (sh2.head < sh2.segs.length) ∧
    (sh2.tail < sh2.segs.length) ∧
    (sh.head ≤ sh2.head) ∧
    (∀ i m, (sh2.node i).next = some m → i < m ∧ m < sh2.segs.length) ∧
    (∀ i m, (sh.node i).next = some m → (sh2.node i).next = some m) ∧
    (∀ l, l < sh.segs.length → (l = sh.tail ∨ (sh.node l).next ≠ none) →
      (l = sh2.tail ∨ (sh2.node l).next ≠ none)) ∧
    (∀ i j, sh2.slot i j = Slot.taken → i ≤ sh2.head) ∧
    TLocalsOK sh2 st2 := by
  cases hT with
  | start_enq a sh =>
      refine ⟨Nat.le_refl _, hheadLt, htailLt, Nat.le_refl _, hnextI, fun i m hm => hm, fun l hl2 hd => hd, htaken, ?_⟩
      · trivial
  | enq_load a sh =>
      refine ⟨Nat.le_refl _, hheadLt, htailLt, Nat.le_refl _, hnextI, fun i m hm => hm, fun l hl2 hd => hd, htaken, ?_⟩
      · exact ⟨htailLt, Or.inl rfl⟩
  | enq_faa_in a lt sh h =>
      refine ⟨?_, ?_, ?_, Nat.le_refl _, ?_, ?_, ?_, ?_, ?_⟩
      · simp [length_setNode]
      · rw [length_setNode]
        exact hheadLt
      · rw [length_setNode]
        exact htailLt
      · intro i m hm
        rw [node_setNode] at hm
        by_cases hc : lt = i ∧ i < sh.segs.length
        · rw [if_pos hc] at hm
          have hm2 : (sh.node lt).next = some m := hm
          obtain ⟨hc1, hc2⟩ := hc
          subst hc1
          obtain ⟨q1, q2⟩ := hnextI lt m hm2
          exact ⟨q1, by rw [length_setNode]; exact q2⟩
        · rw [if_neg hc] at hm
          obtain ⟨q1, q2⟩ := hnextI i m hm
          exact ⟨q1, by rw [length_setNode]; exact q2⟩
      · intro i m hm
        rw [node_setNode]
        by_cases hc : lt = i ∧ i < sh.segs.length
        · rw [if_pos hc]
          show (sh.node lt).next = some m
          rw [hc.1]
          exact hm
        · rw [if_neg hc]
          exact hm
      · intro l hl2 hd
        rcases hd with hd | hd
        · exact Or.inl hd
        · refine Or.inr ?_
          rw [node_setNode]
          by_cases hc : lt = l ∧ l < sh.segs.length
          · rw [if_pos hc]
            show (sh.node lt).next ≠ none
            rw [hc.1]
            exact hd
          · rw [if_neg hc]
            exact hd
      · intro i j hij
        have hij2 : sh.slot i j = Slot.taken := by
          rw [← hij]
          refine (slot_setNode_same_slots sh lt _ ?_ i j).symm
          rfl
        exact htaken i j hij2
      · have hl : lt < sh.segs.length ∧ (lt = sh.tail ∨ (sh.node lt).next ≠ none) := hloc
        refine ⟨?_, ?_⟩
        · rw [length_setNode]
          exact hl.1
        · rcases hl.2 with hd | hd
          · exact Or.inl hd
          · refine Or.inr ?_
            rw [node_setNode]
            by_cases hc : lt = lt ∧ lt < sh.segs.length
            · rw [if_pos hc]
              exact hd
            · rw [if_neg hc]
              exact hd
  | enq_faa_full a lt sh h =>
      refine ⟨?_, ?_, ?_, Nat.le_refl _, ?_, ?_, ?_, ?_, ?_⟩
      · simp [length_setNode]
      · rw [length_setNode]
        exact hheadLt
      · rw [length_setNode]
        exact htailLt
      · intro i m hm
        rw [node_setNode] at hm
        by_cases hc : lt = i ∧ i < sh.segs.length
        · rw [if_pos hc] at hm
          have hm2 : (sh.node lt).next = some m := hm
          obtain ⟨hc1, hc2⟩ := hc
          subst hc1
          obtain ⟨q1, q2⟩ := hnextI lt m hm2
          exact ⟨q1, by rw [length_setNode]; exact q2⟩
        · rw [if_neg hc] at hm
          obtain ⟨q1, q2⟩ := hnextI i m hm
          exact ⟨q1, by rw [length_setNode]; exact q2⟩
      · intro i m hm
        rw [node_setNode]
        by_cases hc : lt = i ∧ i < sh.segs.length
        · rw [if_pos hc]
          show (sh.node lt).next = some m
          rw [hc.1]
          exact hm
        · rw [if_neg hc]
          exact hm
      · intro l hl2 hd
        rcases hd with hd | hd
        · exact Or.inl hd
        · refine Or.inr ?_
          rw [node_setNode]
          by_cases hc : lt = l ∧ l < sh.segs.length
          · rw [if_pos hc]
            show (sh.node lt).next ≠ none
            rw [hc.1]
            exact hd
          · rw [if_neg hc]
            exact hd
      · intro i j hij
        have hij2 : sh.slot i j = Slot.taken := by
          rw [← hij]
          refine (slot_setNode_same_slots sh lt _ ?_ i j).symm
          rfl
        exact htaken i j hij2
      · have hl : lt < sh.segs.length ∧ (lt = sh.tail ∨ (sh.node lt).next ≠ none) := hloc
        refine ⟨?_, ?_⟩
        · rw [length_setNode]
          exact hl.1
        · rcases hl.2 with hd | hd
          · exact Or.inl hd
          · refine Or.inr ?_
            rw [node_setNode]
            by_cases hc : lt = lt ∧ lt < sh.segs.length
            · rw [if_pos hc]
              exact hd
            · rw [if_neg hc]
              exact hd
  | enq_cas_ok a lt idx sh h =>
      refine ⟨?_, ?_, ?_, Nat.le_refl _, ?_, ?_, ?_, ?_, ?_⟩
      · simp [length_setNode]
      · rw [length_setNode]
        exact hheadLt
      · rw [length_setNode]
        exact htailLt
      · intro i m hm
        rw [node_setNode] at hm
        by_cases hc : lt = i ∧ i < sh.segs.length
        · rw [if_pos hc] at hm
          have hm2 : (sh.node lt).next = some m := hm
          obtain ⟨hc1, hc2⟩ := hc
          subst hc1
          obtain ⟨q1, q2⟩ := hnextI lt m hm2
          exact ⟨q1, by rw [length_setNode]; exact q2⟩
        · rw [if_neg hc] at hm
          obtain ⟨q1, q2⟩ := hnextI i m hm
          exact ⟨q1, by rw [length_setNode]; exact q2⟩
      · intro i m hm
        rw [node_setNode]
        by_cases hc : lt = i ∧ i < sh.segs.length
        · rw [if_pos hc]
          show (sh.node lt).next = some m
          rw [hc.1]
          exact hm
        · rw [if_neg hc]
          exact hm
      · intro l hl2 hd
        rcases hd with hd | hd
        · exact Or.inl hd
        · refine Or.inr ?_
          rw [node_setNode]
          by_cases hc : lt = l ∧ l < sh.segs.length
          · rw [if_pos hc]
            show (sh.node lt).next ≠ none
            rw [hc.1]
            exact hd
          · rw [if_neg hc]
            exact hd
      · intro i j hij
        rw [slot_setNode_set] at hij
        revert hij
        split
        · rename_i hc
          intro hij
          exact Slot.noConfusion hij
        · intro hij
          exact htaken i j hij
      · trivial
  | enq_cas_fail a lt idx sh h =>
      refine ⟨Nat.le_refl _, hheadLt, htailLt, Nat.le_refl _, hnextI, fun i m hm => hm, fun l hl2 hd => hd, htaken, ?_⟩
      · trivial
  | enq_chk_moved a lt sh h =>
      refine ⟨Nat.le_refl _, hheadLt, htailLt, Nat.le_refl _, hnextI, fun i m hm => hm, fun l hl2 hd => hd, htaken, ?_⟩
      · trivial
  | enq_chk_same a lt sh h =>
      refine ⟨Nat.le_refl _, hheadLt, htailLt, Nat.le_refl _, hnextI, fun i m hm => hm, fun l hl2 hd => hd, htaken, ?_⟩
      · exact hloc
  | enq_next_null a lt sh h =>
      have hl : lt < sh.segs.length ∧ (lt = sh.tail ∨ (sh.node lt).next ≠ none) := hloc
      have hlen : ({ sh with segs := sh.segs ++ [CNode.seeded a] } : Shared α).segs.length = sh.segs.length + 1 := by
        show (sh.segs ++ [CNode.seeded a]).length = sh.segs.length + 1
        simp
      refine ⟨?_, ?_, ?_, Nat.le_refl _, ?_, ?_, ?_, ?_, ?_⟩
      · rw [hlen]
        exact Nat.le_succ _
      · rw [hlen]
        exact Nat.lt_succ_of_lt hheadLt
      · rw [hlen]
        exact Nat.lt_succ_of_lt htailLt
      · intro i m hm
        rw [node_append] at hm
        split at hm
        · obtain ⟨q1, q2⟩ := hnextI i m hm
          refine ⟨q1, ?_⟩
          rw [hlen]
          exact Nat.lt_succ_of_lt q2
        · split at hm
          · have hm2 : (none : Option Nat) = some m := hm
            exact Option.noConfusion hm2
          · have hm2 : (none : Option Nat) = some m := hm
            exact Option.noConfusion hm2
      · intro i m hm
        rw [node_append]
        by_cases hi : i < sh.segs.length
        · rw [if_pos hi]
          exact hm
        · rw [node_oob sh i (Nat.le_of_not_lt hi)] at hm
          have hm2 : (none : Option Nat) = some m := hm
          exact Option.noConfusion hm2
      · intro l hl2 hd
        rcases hd with hd | hd
        · exact Or.inl hd
        · refine Or.inr ?_
          rw [node_append, if_pos hl2]
          exact hd
      · intro i j hij
        rw [slot_append] at hij
        revert hij
        split
        · intro hij
          exact htaken i j hij
        · split
          · intro hij
            rw [seeded_slot] at hij
            revert hij
            split
            · intro hij
              exact Slot.noConfusion hij
            · intro hij
              exact Slot.noConfusion hij
          · intro hij
            exact Slot.noConfusion hij
      · refine ⟨?_, ?_, hl.1, ?_⟩
        · rw [hlen]
          exact Nat.lt_succ_of_lt hl.1
        · rw [hlen]
          exact Nat.lt_succ_self _
        · rcases hl.2 with hd | hd
          · exact Or.inl hd
          · refine Or.inr ?_
            rw [node_append, if_pos hl.1]
            exact hd
  | enq_next_some a lt nx sh h =>
      refine ⟨Nat.le_refl _, hheadLt, htailLt, Nat.le_refl _, hnextI, fun i m hm => hm, fun l hl2 hd => hd, htaken, ?_⟩
      · have hl : lt < sh.segs.length ∧ (lt = sh.tail ∨ (sh.node lt).next ≠ none) := hloc
        exact ⟨hl.1, h⟩
  | enq_link_ok a lt nw sh h =>
      have hl : lt < sh.segs.length ∧ nw < sh.segs.length ∧ lt < nw ∧ (lt = sh.tail ∨ (sh.node lt).next ≠ none) := hloc
      refine ⟨?_, ?_, ?_, Nat.le_refl _, ?_, ?_, ?_, ?_, ?_⟩
      · simp [length_setNode]
      · rw [length_setNode]
        exact hheadLt
      · rw [length_setNode]
        exact htailLt
      · intro i m hm
        rw [node_setNode] at hm
        by_cases hc : lt = i ∧ i < sh.segs.length
        · rw [if_pos hc] at hm
          have hm2 : some nw = some m := hm
          obtain rfl := Option.some.inj hm2
          obtain ⟨hc1, hc2⟩ := hc
          subst hc1
          exact ⟨hl.2.2.1, by rw [length_setNode]; exact hl.2.1⟩
        · rw [if_neg hc] at hm
          obtain ⟨q1, q2⟩ := hnextI i m hm
          exact ⟨q1, by rw [length_setNode]; exact q2⟩
      · intro i m hm
        rw [node_setNode]
        by_cases hc : lt = i ∧ i < sh.segs.length
        · exfalso
          rw [← hc.1] at hm
          rw [h] at hm
          exact Option.noConfusion hm
        · rw [if_neg hc]
          exact hm
      · intro l hl2 hd
        rcases hd with hd | hd
        · exact Or.inl hd
        · refine Or.inr ?_
          rw [node_setNode]
          by_cases hc : lt = l ∧ l < sh.segs.length
          · rw [if_pos hc]
            intro hx
            have hx2 : some nw = (none : Option Nat) := hx
            exact Option.noConfusion hx2
          · rw [if_neg hc]
            exact hd
      · intro i j hij
        have hij2 : sh.slot i j = Slot.taken := by
          rw [← hij]
          refine (slot_setNode_same_slots sh lt _ ?_ i j).symm
          rfl
        exact htaken i j hij2
      · refine ⟨?_, ?_, hl.2.2.1, ?_⟩
        · rw [length_setNode]
          exact hl.1
        · rw [length_setNode]
          exact hl.2.1
        · rw [node_setNode, if_pos ⟨rfl, hl.1⟩]
  | enq_link_fail a lt nw sh h =>
      refine ⟨Nat.le_refl _, hheadLt, htailLt, Nat.le_refl _, hnextI, fun i m hm => hm, fun l hl2 hd => hd, htaken, ?_⟩
      · trivial
  | enq_adv_ok a lt nw sh h =>
      have hl : lt < sh.segs.length ∧ nw < sh.segs.length ∧ lt < nw ∧ (sh.node lt).next = some nw := hloc
      refine ⟨Nat.le_refl _, hheadLt, ?_, Nat.le_refl _, hnextI, fun i m hm => hm, ?_, htaken, ?_⟩
      · exact hl.2.1
      · intro l hl2 hd
        rcases hd with hd | hd
        · refine Or.inr ?_
          show (sh.node l).next ≠ none
          rw [hd, h, hl.2.2.2]
          exact fun hx => Option.noConfusion hx
        · exact Or.inr hd
      · trivial
  | enq_adv_fail a lt nw sh h =>
      refine ⟨Nat.le_refl _, hheadLt, htailLt, Nat.le_refl _, hnextI, fun i m hm => hm, fun l hl2 hd => hd, htaken, ?_⟩
      · trivial
  | enq_help_ok a lt nx sh h =>
      have hl : lt < sh.segs.length ∧ (sh.node lt).next = some nx := hloc
      refine ⟨Nat.le_refl _, hheadLt, ?_, Nat.le_refl _, hnextI, fun i m hm => hm, ?_, htaken, ?_⟩
      · exact (hnextI lt nx hl.2).2
      · intro l hl2 hd
        rcases hd with hd | hd
        · refine Or.inr ?_
          show (sh.node l).next ≠ none
          rw [hd, h, hl.2]
          exact fun hx => Option.noConfusion hx
        · exact Or.inr hd
      · trivial
  | enq_help_fail a lt nx sh h =>
      refine ⟨Nat.le_refl _, hheadLt, htailLt, Nat.le_refl _, hnextI, fun i m hm => hm, fun l hl2 hd => hd, htaken, ?_⟩
      · trivial
  | start_deq sh =>
      refine ⟨Nat.le_refl _, hheadLt, htailLt, Nat.le_refl _, hnextI, fun i m hm => hm, fun l hl2 hd => hd, htaken, ?_⟩
      · trivial
  | deq_load sh =>
      refine ⟨Nat.le_refl _, hheadLt, htailLt, Nat.le_refl _, hnextI, fun i m hm => hm, fun l hl2 hd => hd, htaken, ?_⟩
      · exact Nat.le_refl _
  | deq_chkd lh sh =>
      refine ⟨Nat.le_refl _, hheadLt, htailLt, Nat.le_refl _, hnextI, fun i m hm => hm, fun l hl2 hd => hd, htaken, ?_⟩
      · exact hloc
  | deq_chke_lt lh ld sh h =>
      refine ⟨Nat.le_refl _, hheadLt, htailLt, Nat.le_refl _, hnextI, fun i m hm => hm, fun l hl2 hd => hd, htaken, ?_⟩
      · exact hloc
  | deq_chke_ge lh ld sh h =>
      refine ⟨Nat.le_refl _, hheadLt, htailLt, Nat.le_refl _, hnextI, fun i m hm => hm, fun l hl2 hd => hd, htaken, ?_⟩
      · exact hloc
  | deq_chkn_null lh sh h =>
      refine ⟨Nat.le_refl _, hheadLt, htailLt, Nat.le_refl _, hnextI, fun i m hm => hm, fun l hl2 hd => hd, htaken, ?_⟩
      · trivial
  | deq_chkn_some lh nx sh h =>
      refine ⟨Nat.le_refl _, hheadLt, htailLt, Nat.le_refl _, hnextI, fun i m hm => hm, fun l hl2 hd => hd, htaken, ?_⟩
      · exact hloc
  | deq_faa_in lh sh h =>
      refine ⟨?_, ?_, ?_, Nat.le_refl _, ?_, ?_, ?_, ?_, ?_⟩
      · simp [length_setNode]
      · rw [length_setNode]
        exact hheadLt
      · rw [length_setNode]
        exact htailLt
      · intro i m hm
        rw [node_setNode] at hm
        by_cases hc : lh = i ∧ i < sh.segs.length
        · rw [if_pos hc] at hm
          have hm2 : (sh.node lh).next = some m := hm
          obtain ⟨hc1, hc2⟩ := hc
          subst hc1
          obtain ⟨q1, q2⟩ := hnextI lh m hm2
          exact ⟨q1, by rw [length_setNode]; exact q2⟩
        · rw [if_neg hc] at hm
          obtain ⟨q1, q2⟩ := hnextI i m hm
          exact ⟨q1, by rw [length_setNode]; exact q2⟩
      · intro i m hm
        rw [node_setNode]
        by_cases hc : lh = i ∧ i < sh.segs.length
        · rw [if_pos hc]
          show (sh.node lh).next = some m
          rw [hc.1]
          exact hm
        · rw [if_neg hc]
          exact hm
      · intro l hl2 hd
        rcases hd with hd | hd
        · exact Or.inl hd
        · refine Or.inr ?_
          rw [node_setNode]
          by_cases hc : lh = l ∧ l < sh.segs.length
          · rw [if_pos hc]
            show (sh.node lh).next ≠ none
            rw [hc.1]
            exact hd
          · rw [if_neg hc]
            exact hd
      · intro i j hij
        have hij2 : sh.slot i j = Slot.taken := by
          rw [← hij]
          refine (slot_setNode_same_slots sh lh _ ?_ i j).symm
          rfl
        exact htaken i j hij2
      · exact hloc
  | deq_faa_drained lh sh h =>
      refine ⟨?_, ?_, ?_, Nat.le_refl _, ?_, ?_, ?_, ?_, ?_⟩
      · simp [length_setNode]
      · rw [length_setNode]
        exact hheadLt
      · rw [length_setNode]
        exact htailLt
      · intro i m hm
        rw [node_setNode] at hm
        by_cases hc : lh = i ∧ i < sh.segs.length
        · rw [if_pos hc] at hm
          have hm2 : (sh.node lh).next = some m := hm
          obtain ⟨hc1, hc2⟩ := hc
          subst hc1
          obtain ⟨q1, q2⟩ := hnextI lh m hm2
          exact ⟨q1, by rw [length_setNode]; exact q2⟩
        · rw [if_neg hc] at hm
          obtain ⟨q1, q2⟩ := hnextI i m hm
          exact ⟨q1, by rw [length_setNode]; exact q2⟩
      · intro i m hm
        rw [node_setNode]
        by_cases hc : lh = i ∧ i < sh.segs.length
        · rw [if_pos hc]
          show (sh.node lh).next = some m
          rw [hc.1]
          exact hm
        · rw [if_neg hc]
          exact hm
      · intro l hl2 hd
        rcases hd with hd | hd
        · exact Or.inl hd
        · refine Or.inr ?_
          rw [node_setNode]
          by_cases hc : lh = l ∧ l < sh.segs.length
          · rw [if_pos hc]
            show (sh.node lh).next ≠ none
            rw [hc.1]
            exact hd
          · rw [if_neg hc]
            exact hd
      · intro i j hij
        have hij2 : sh.slot i j = Slot.taken := by
          rw [← hij]
          refine (slot_setNode_same_slots sh lh _ ?_ i j).symm
          rfl
        exact htaken i j hij2
      · exact hloc
  | deq_swap_empty lh idx sh h =>
      refine ⟨?_, ?_, ?_, Nat.le_refl _, ?_, ?_, ?_, ?_, ?_⟩
      · simp [length_setNode]
      · rw [length_setNode]
        exact hheadLt
      · rw [length_setNode]
        exact htailLt
      · intro i m hm
        rw [node_setNode] at hm
        by_cases hc : lh = i ∧ i < sh.segs.length
        · rw [if_pos hc] at hm
          have hm2 : (sh.node lh).next = some m := hm
          obtain ⟨hc1, hc2⟩ := hc
          subst hc1
          obtain ⟨q1, q2⟩ := hnextI lh m hm2
          exact ⟨q1, by rw [length_setNode]; exact q2⟩
        · rw [if_neg hc] at hm
          obtain ⟨q1, q2⟩ := hnextI i m hm
          exact ⟨q1, by rw [length_setNode]; exact q2⟩
      · intro i m hm
        rw [node_setNode]
        by_cases hc : lh = i ∧ i < sh.segs.length
        · rw [if_pos hc]
          show (sh.node lh).next = some m
          rw [hc.1]
          exact hm
        · rw [if_neg hc]
          exact hm
      · intro l hl2 hd
        rcases hd with hd | hd
        · exact Or.inl hd
        · refine Or.inr ?_
          rw [node_setNode]
          by_cases hc : lh = l ∧ l < sh.segs.length
          · rw [if_pos hc]
            show (sh.node lh).next ≠ none
            rw [hc.1]
            exact hd
          · rw [if_neg hc]
            exact hd
      · intro i j hij
        rw [slot_setNode_set] at hij
        revert hij
        split
        · rename_i hc
          intro hij
          have hl : lh ≤ sh.head := hloc
          rw [← hc.1]
          exact hl
        · intro hij
          exact htaken i j hij
      · trivial
  | deq_swap_occ lh idx a sh h =>
      refine ⟨?_, ?_, ?_, Nat.le_refl _, ?_, ?_, ?_, ?_, ?_⟩
      · simp [length_setNode]
      · rw [length_setNode]
        exact hheadLt
      · rw [length_setNode]
        exact htailLt
      · intro i m hm
        rw [node_setNode] at hm
        by_cases hc : lh = i ∧ i < sh.segs.length
        · rw [if_pos hc] at hm
          have hm2 : (sh.node lh).next = some m := hm
          obtain ⟨hc1, hc2⟩ := hc
          subst hc1
          obtain ⟨q1, q2⟩ := hnextI lh m hm2
          exact ⟨q1, by rw [length_setNode]; exact q2⟩
        · rw [if_neg hc] at hm
          obtain ⟨q1, q2⟩ := hnextI i m hm
          exact ⟨q1, by rw [length_setNode]; exact q2⟩
      · intro i m hm
        rw [node_setNode]
        by_cases hc : lh = i ∧ i < sh.segs.length
        · rw [if_pos hc]
          show (sh.node lh).next = some m
          rw [hc.1]
          exact hm
        · rw [if_neg hc]
          exact hm
      · intro l hl2 hd
        rcases hd with hd | hd
        · exact Or.inl hd
        · refine Or.inr ?_
          rw [node_setNode]
          by_cases hc : lh = l ∧ l < sh.segs.length
          · rw [if_pos hc]
            show (sh.node lh).next ≠ none
            rw [hc.1]
            exact hd
          · rw [if_neg hc]
            exact hd
      · intro i j hij
        rw [slot_setNode_set] at hij
        revert hij
        split
        · rename_i hc
          intro hij
          have hl : lh ≤ sh.head := hloc
          rw [← hc.1]
          exact hl
        · intro hij
          exact htaken i j hij
      · trivial
  | deq_next_null lh sh h =>
      refine ⟨Nat.le_refl _, hheadLt, htailLt, Nat.le_refl _, hnextI, fun i m hm => hm, fun l hl2 hd => hd, htaken, ?_⟩
      · trivial
  | deq_next_some lh nx sh h =>
      refine ⟨Nat.le_refl _, hheadLt, htailLt, Nat.le_refl _, hnextI, fun i m hm => hm, fun l hl2 hd => hd, htaken, ?_⟩
      · have hl : lh ≤ sh.head := hloc
        exact ⟨hl, h⟩
  | deq_adv_ok lh nx sh h =>
      have hl : lh ≤ sh.head ∧ (sh.node lh).next = some nx := hloc
      have hx := hnextI lh nx hl.2
      refine ⟨Nat.le_refl _, ?_, htailLt, ?_, hnextI, fun i m hm => hm, fun l hl2 hd => hd, ?_, ?_⟩
      · exact hx.2
      · show sh.head ≤ nx
        rw [h]
        exact Nat.le_of_lt hx.1
      · intro i j hij
        have h2 := htaken i j hij
        show i ≤ nx
        rw [h] at h2
        exact Nat.le_trans h2 (Nat.le_of_lt hx.1)
      · trivial
  | deq_adv_fail lh nx sh h =>
      refine ⟨Nat.le_refl _, hheadLt, htailLt, Nat.le_refl _, hnextI, fun i m hm => hm, fun l hl2 hd => hd, htaken, ?_⟩
      · trivial
  | finish r sh =>
      refine ⟨Nat.le_refl _, hheadLt, htailLt, Nat.le_refl _, hnextI, fun i m hm => hm, fun l hl2 hd => hd, htaken, ?_⟩
      · trivial

/-- Thread-local constraints survive any change of the shared state that
grows the arena, advances the head, preserves installed links and preserves
the tail disjunct. -/
theorem TLocalsOK_mono (sh sh2 : Shared α)
    (hlen : sh.segs.length ≤ sh2.segs.length)
    (hhead : sh.head ≤ sh2.head)
    (hnext : ∀ i m, (sh.node i).next = some m → (sh2.node i).next = some m)
    (htail : ∀ l, l < sh.segs.length → (l = sh.tail ∨ (sh.node l).next ≠ none) →
      (l = sh2.tail ∨ (sh2.node l).next ≠ none))
    (st : TState α) (h : TLocalsOK sh st) : TLocalsOK sh2 st := by
  cases st with
  | idle => trivial
  | enqLoad a => trivial
  | enqFaa a lt =>
      have h2 : lt < sh.segs.length ∧ (lt = sh.tail ∨ (sh.node lt).next ≠ none) := h
      exact ⟨Nat.lt_of_lt_of_le h2.1 hlen, htail lt h2.1 h2.2⟩
  | enqCas a lt idx =>
      have h2 : lt < sh.segs.length ∧ (lt = sh.tail ∨ (sh.node lt).next ≠ none) := h
      exact ⟨Nat.lt_of_lt_of_le h2.1 hlen, htail lt h2.1 h2.2⟩
  | enqChk a lt =>
      have h2 : lt < sh.segs.length ∧ (lt = sh.tail ∨ (sh.node lt).next ≠ none) := h
      exact ⟨Nat.lt_of_lt_of_le h2.1 hlen, htail lt h2.1 h2.2⟩
  | enqNext a lt =>
      have h2 : lt < sh.segs.length ∧ (lt = sh.tail ∨ (sh.node lt).next ≠ none) := h
      exact ⟨Nat.lt_of_lt_of_le h2.1 hlen, htail lt h2.1 h2.2⟩
  | enqLink a lt nw =>
      have h2 : lt < sh.segs.length ∧ nw < sh.segs.length ∧ lt < nw ∧
          (lt = sh.tail ∨ (sh.node lt).next ≠ none) := h
      exact ⟨Nat.lt_of_lt_of_le h2.1 hlen, Nat.lt_of_lt_of_le h2.2.1 hlen, h2.2.2.1,
        htail lt h2.1 h2.2.2.2⟩
  | enqAdv a lt nw =>
      have h2 : lt < sh.segs.length ∧ nw < sh.segs.length ∧ lt < nw ∧
          (sh.node lt).next = some nw := h
      exact ⟨Nat.lt_of_lt_of_le h2.1 hlen, Nat.lt_of_lt_of_le h2.2.1 hlen, h2.2.2.1,
        hnext lt nw h2.2.2.2⟩
  | enqHelp a lt nx =>
      have h2 : lt < sh.segs.length ∧ (sh.node lt).next = some nx := h
      exact ⟨Nat.lt_of_lt_of_le h2.1 hlen, hnext lt nx h2.2⟩
  | deqLoad => trivial
  | deqChkD lh =>
      have h2 : lh ≤ sh.head := h
      exact Nat.le_trans h2 hhead
  | deqChkE lh ld =>
      have h2 : lh ≤ sh.head := h
      exact Nat.le_trans h2 hhead
  | deqChkN lh =>
      have h2 : lh ≤ sh.head := h
      exact Nat.le_trans h2 hhead
  | deqFaa lh =>
      have h2 : lh ≤ sh.head := h
      exact Nat.le_trans h2 hhead
  | deqSwap lh idx =>
      have h2 : lh ≤ sh.head := h
      exact Nat.le_trans h2 hhead
  | deqNext lh =>
      have h2 : lh ≤ sh.head := h
      exact Nat.le_trans h2 hhead
  | deqAdv lh nx =>
      have h2 : lh ≤ sh.head ∧ (sh.node lh).next = some nx := h
      exact ⟨Nat.le_trans h2.1 hhead, hnext lh nx h2.2⟩
  | stopped r => trivial

/-- Assembling CInv of the next configuration from the per-step facts. -/
theorem CInv_update (c c2 : Config α) (tid : Nat)
    (hI : CInv c) (hoth : ∀ t, t ≠ tid → c2.ts t = c.ts t)
    (hlen : c.sh.segs.length ≤ c2.sh.segs.length)
    (hheadLt : c2.sh.head < c2.sh.segs.length)
    (htailLt : c2.sh.tail < c2.sh.segs.length)
    (hhead : c.sh.head ≤ c2.sh.head)
    (hnextI : ∀ i m, (c2.sh.node i).next = some m → i < m ∧ m < c2.sh.segs.length)
    (hnextP : ∀ i m, (c.sh.node i).next = some m → (c2.sh.node i).next = some m)
    (htailD : ∀ l, l < c.sh.segs.length → (l = c.sh.tail ∨ (c.sh.node l).next ≠ none) →
      (l = c2.sh.tail ∨ (c2.sh.node l).next ≠ none))
    (htaken : ∀ i j, c2.sh.slot i j = Slot.taken → i ≤ c2.sh.head)
    (hnew : TLocalsOK c2.sh (c2.ts tid)) : CInv c2 := by
  refine ⟨hheadLt, htailLt, hnextI, ?_, htaken⟩
  intro t
  by_cases ht : t = tid
  · rw [ht]
    exact hnew
  · rw [hoth t ht]
    exact TLocalsOK_mono c.sh c2.sh hlen hhead hnextP htailD _ (hI.locals t)

/-- CInv holds at the initial configuration. -/
theorem CInv_init : CInv (Config.init : Config α) := by
  refine ⟨?_, ?_, ?_, ?_, ?_⟩
  · show (0 : Nat) < 1
    exact Nat.zero_lt_one
  · show (0 : Nat) < 1
    exact Nat.zero_lt_one
  · intro i m hm
    exfalso
    have h0 : ((Config.init : Config α).sh).node i = CNode.emptyC := by
      cases i with
      | zero => rfl
      | succ k => rfl
    rw [h0] at hm
    have hm2 : (none : Option Nat) = some m := hm
    exact Option.noConfusion hm2
  · intro tid
    trivial
  · intro i j hij
    exfalso
    have h0 : ((Config.init : Config α).sh).node i = CNode.emptyC := by
      cases i with
      | zero => rfl
      | succ k => rfl
    have hij2 : ((List.replicate BUFFER_SIZE (Slot.empty) : List (Slot α)).getD j
        (Slot.empty)) = Slot.taken := by
      have hij3 : ((Config.init : Config α).sh.node i).slots.getD j (Slot.empty) =
          Slot.taken := hij
      rw [h0] at hij3
      exact hij3
    rw [getD_replicate] at hij2
    revert hij2
    split
    · intro hij2
      exact Slot.noConfusion hij2
    · intro hij2
      exact Slot.noConfusion hij2

/-- One system step preserves CInv. -/
theorem CInv_step (c c2 : Config α) (hI : CInv c) (hs : Step c c2) : CInv c2 := by
  obtain ⟨tid, hT, hoth⟩ := hs
  obtain ⟨f1, f2, f3, f4, f5, f6, f7, f8, f9⟩ :=
    CInv_tstep hT hI.headLt hI.tailLt hI.nextInc (hI.locals tid) hI.takenBound
  exact CInv_update c c2 tid hI hoth f1 f2 f3 f4 f5 f6 f7 f8 f9

/-- CInv holds in every reachable configuration. -/
theorem CInv_reachable (c : Config α) (hr : Reachable c) : CInv c := by
  have hr2 : Relation.ReflTransGen Step (Config.init : Config α) c := hr
  clear hr
  induction hr2 with
  | refl => exact CInv_init
  | tail hab hs ih => exact CInv_step _ _ ih hs

/-- Per-step facts about the next links and the tail pointer: a link changes
only from null to a pointer, an installed link persists, the tail never
regresses. -/
theorem tstep_chain {st st2 : TState α} {sh sh2 : Shared α}
    (hT : TStep st sh st2 sh2) (hloc : TLocalsOK sh st)
    (hnextI : ∀ i m, (sh.node i).next = some m → i < m ∧ m < sh.segs.length) :
    (∀ i, (sh2.node i).next ≠ (sh.node i).next →
      (sh.node i).next = none ∧ ∃ m, (sh2.node i).next = some m) ∧
    (∀ i m, (sh.node i).next = some m → (sh2.node i).next = some m) ∧
    sh.tail ≤ sh2.tail := by
  cases hT with
  | start_enq a sh =>
      exact ⟨fun i hne => absurd rfl hne, fun i m hm => hm, Nat.le_refl _⟩
  | enq_load a sh =>
      exact ⟨fun i hne => absurd rfl hne, fun i m hm => hm, Nat.le_refl _⟩
  | enq_faa_in a lt sh h =>
      refine ⟨?_, ?_, Nat.le_refl _⟩
      · intro i hne
        exfalso
        apply hne
        rw [node_setNode]
        by_cases hc : lt = i ∧ i < sh.segs.length
        · rw [if_pos hc]
          show (sh.node lt).next = (sh.node i).next
          rw [hc.1]
        · rw [if_neg hc]
      · intro i m hm
        rw [node_setNode]
        by_cases hc : lt = i ∧ i < sh.segs.length
        · rw [if_pos hc]
          show (sh.node lt).next = some m
          rw [hc.1]
          exact hm
        · rw [if_neg hc]
          exact hm
  | enq_faa_full a lt sh h =>
      refine ⟨?_, ?_, Nat.le_refl _⟩
      · intro i hne
        exfalso
        apply hne
        rw [node_setNode]
        by_cases hc : lt = i ∧ i < sh.segs.length
        · rw [if_pos hc]
          show (sh.node lt).next = (sh.node i).next
          rw [hc.1]
        · rw [if_neg hc]
      · intro i m hm
        rw [node_setNode]
        by_cases hc : lt = i ∧ i < sh.segs.length
        · rw [if_pos hc]
          show (sh.node lt).next = some m
          rw [hc.1]
          exact hm
        · rw [if_neg hc]
          exact hm
  | enq_cas_ok a lt idx sh h =>
      refine ⟨?_, ?_, Nat.le_refl _⟩
      · intro i hne
        exfalso
        apply hne
        rw [node_setNode]
        by_cases hc : lt = i ∧ i < sh.segs.length
        · rw [if_pos hc]
          show (sh.node lt).next = (sh.node i).next
          rw [hc.1]
        · rw [if_neg hc]
      · intro i m hm
        rw [node_setNode]
        by_cases hc : lt = i ∧ i < sh.segs.length
        · rw [if_pos hc]
          show (sh.node lt).next = some m
          rw [hc.1]
          exact hm
        · rw [if_neg hc]
          exact hm
  | enq_cas_fail a lt idx sh h =>
      exact ⟨fun i hne => absurd rfl hne, fun i m hm => hm, Nat.le_refl _⟩
  | enq_chk_moved a lt sh h =>
      exact ⟨fun i hne => absurd rfl hne, fun i m hm => hm, Nat.le_refl _⟩
  | enq_chk_same a lt sh h =>
      exact ⟨fun i hne => absurd rfl hne, fun i m hm => hm, Nat.le_refl _⟩
  | enq_next_null a lt sh h =>
      refine ⟨?_, ?_, Nat.le_refl _⟩
      · intro i hne
        exfalso
        apply hne
        rw [node_append]
        by_cases hi : i < sh.segs.length
        · rw [if_pos hi]
        · rw [if_neg hi, node_oob sh i (Nat.le_of_not_lt hi)]
          by_cases he : i = sh.segs.length
          · rw [if_pos he]
            rfl
          · rw [if_neg he]
      · intro i m hm
        rw [node_append]
        by_cases hi : i < sh.segs.length
        · rw [if_pos hi]
          exact hm
        · rw [node_oob sh i (Nat.le_of_not_lt hi)] at hm
          have hm2 : (none : Option Nat) = some m := hm
          exact Option.noConfusion hm2
  | enq_next_some a lt nx sh h =>
      exact ⟨fun i hne => absurd rfl hne, fun i m hm => hm, Nat.le_refl _⟩
  | enq_link_ok a lt nw sh h =>
      refine ⟨?_, ?_, Nat.le_refl _⟩
      · intro i hne
        by_cases hc : lt = i ∧ i < sh.segs.length
        · refine ⟨by rw [← hc.1]; exact h, nw, ?_⟩
          rw [node_setNode, if_pos hc]
        · exfalso
          apply hne
          rw [node_setNode, if_neg hc]
      · intro i m hm
        rw [node_setNode]
        by_cases hc : lt = i ∧ i < sh.segs.length
        · exfalso
          rw [← hc.1] at hm
          rw [h] at hm
          exact Option.noConfusion hm
        · rw [if_neg hc]
          exact hm
  | enq_link_fail a lt nw sh h =>
      exact ⟨fun i hne => absurd rfl hne, fun i m hm => hm, Nat.le_refl _⟩
  | enq_adv_ok a lt nw sh h =>
      have hl : lt < sh.segs.length ∧ nw < sh.segs.length ∧ lt < nw ∧ (sh.node lt).next = some nw := hloc
      refine ⟨fun i hne => absurd rfl hne, fun i m hm => hm, ?_⟩
      show sh.tail ≤ nw
      rw [h]
      exact Nat.le_of_lt hl.2.2.1
  | enq_adv_fail a lt nw sh h =>
      exact ⟨fun i hne => absurd rfl hne, fun i m hm => hm, Nat.le_refl _⟩
  | enq_help_ok a lt nx sh h =>
      have hl : lt < sh.segs.length ∧ (sh.node lt).next = some nx := hloc
      refine ⟨fun i hne => absurd rfl hne, fun i m hm => hm, ?_⟩
      show sh.tail ≤ nx
      rw [h]
      exact Nat.le_of_lt (hnextI lt nx hl.2).1
  | enq_help_fail a lt nx sh h =>
      exact ⟨fun i hne => absurd rfl hne, fun i m hm => hm, Nat.le_refl _⟩
  | start_deq sh =>
      exact ⟨fun i hne => absurd rfl hne, fun i m hm => hm, Nat.le_refl _⟩
  | deq_load sh =>
      exact ⟨fun i hne => absurd rfl hne, fun i m hm => hm, Nat.le_refl _⟩
  | deq_chkd lh sh =>
      exact ⟨fun i hne => absurd rfl hne, fun i m hm => hm, Nat.le_refl _⟩
  | deq_chke_lt lh ld sh h =>
      exact ⟨fun i hne => absurd rfl hne, fun i m hm => hm, Nat.le_refl _⟩
  | deq_chke_ge lh ld sh h =>
      exact ⟨fun i hne => absurd rfl hne, fun i m hm => hm, Nat.le_refl _⟩
  | deq_chkn_null lh sh h =>
      exact ⟨fun i hne => absurd rfl hne, fun i m hm => hm, Nat.le_refl _⟩
  | deq_chkn_some lh nx sh h =>
      exact ⟨fun i hne => absurd rfl hne, fun i m hm => hm, Nat.le_refl _⟩
  | deq_faa_in lh sh h =>
      refine ⟨?_, ?_, Nat.le_refl _⟩
      · intro i hne
        exfalso
        apply hne
        rw [node_setNode]
        by_cases hc : lh = i ∧ i < sh.segs.length
        · rw [if_pos hc]
          show (sh.node lh).next = (sh.node i).next
          rw [hc.1]
        · rw [if_neg hc]
      · intro i m hm
        rw [node_setNode]
        by_cases hc : lh = i ∧ i < sh.segs.length
        · rw [if_pos hc]
          show (sh.node lh).next = some m
          rw [hc.1]
          exact hm
        · rw [if_neg hc]
          exact hm
  | deq_faa_drained lh sh h =>
      refine ⟨?_, ?_, Nat.le_refl _⟩
      · intro i hne
        exfalso
        apply hne
        rw [node_setNode]
        by_cases hc : lh = i ∧ i < sh.segs.length
        · rw [if_pos hc]
          show (sh.node lh).next = (sh.node i).next
          rw [hc.1]
        · rw [if_neg hc]
      · intro i m hm
        rw [node_setNode]
        by_cases hc : lh = i ∧ i < sh.segs.length
        · rw [if_pos hc]
          show (sh.node lh).next = some m
          rw [hc.1]
          exact hm
        · rw [if_neg hc]
          exact hm
  | deq_swap_empty lh idx sh h =>
      refine ⟨?_, ?_, Nat.le_refl _⟩
      · intro i hne
        exfalso
        apply hne
        rw [node_setNode]
        by_cases hc : lh = i ∧ i < sh.segs.length
        · rw [if_pos hc]
          show (sh.node lh).next = (sh.node i).next
          rw [hc.1]
        · rw [if_neg hc]
      · intro i m hm
        rw [node_setNode]
        by_cases hc : lh = i ∧ i < sh.segs.length
        · rw [if_pos hc]
          show (sh.node lh).next = some m
          rw [hc.1]
          exact hm
        · rw [if_neg hc]
          exact hm
  | deq_swap_occ lh idx a sh h =>
      refine ⟨?_, ?_, Nat.le_refl _⟩
      · intro i hne
        exfalso
        apply hne
        rw [node_setNode]
        by_cases hc : lh = i ∧ i < sh.segs.length
        · rw [if_pos hc]
          show (sh.node lh).next = (sh.node i).next
          rw [hc.1]
        · rw [if_neg hc]
      · intro i m hm
        rw [node_setNode]
        by_cases hc : lh = i ∧ i < sh.segs.length
        · rw [if_pos hc]
          show (sh.node lh).next = some m
          rw [hc.1]
          exact hm
        · rw [if_neg hc]
          exact hm
  | deq_next_null lh sh h =>
      exact ⟨fun i hne => absurd rfl hne, fun i m hm => hm, Nat.le_refl _⟩
  | deq_next_some lh nx sh h =>
      exact ⟨fun i hne => absurd rfl hne, fun i m hm => hm, Nat.le_refl _⟩
  | deq_adv_ok lh nx sh h =>
      exact ⟨fun i hne => absurd rfl hne, fun i m hm => hm, Nat.le_refl _⟩
  | deq_adv_fail lh nx sh h =>
      exact ⟨fun i hne => absurd rfl hne, fun i m hm => hm, Nat.le_refl _⟩
  | finish r sh =>
      exact ⟨fun i hne => absurd rfl hne, fun i m hm => hm, Nat.le_refl _⟩

/-- Following next links can only increase the arena address, given that
every installed link points strictly forward. -/
theorem reachLink_le (sh : Shared α)
    (hInc : ∀ i m, (sh.node i).next = some m → i < m ∧ m < sh.segs.length)
    (i1 i2 : Nat) (h : ReachLink sh i1 i2) : i1 ≤ i2 := by
  have h2 : Relation.ReflTransGen (fun x y => (sh.node x).next = some y) i1 i2 := h
  clear h
  induction h2 with
  | refl => exact Nat.le_refl _
  | tail hab hbc ih => exact Nat.le_trans ih (Nat.le_of_lt (hInc _ _ hbc).1)

/-- A nontrivial chain of next links strictly increases the arena address. -/
theorem reachLink_lt (sh : Shared α)
    (hInc : ∀ i m, (sh.node i).next = some m → i < m ∧ m < sh.segs.length)
    (i1 i2 : Nat) (h : ReachLink sh i1 i2) (hne : i1 ≠ i2) : i1 < i2 := by
  have h2 : Relation.ReflTransGen (fun x y => (sh.node x).next = some y) i1 i2 := h
  cases h2 with
  | refl => exact absurd rfl hne
  | tail hab hbc =>
      exact Nat.lt_of_le_of_lt (reachLink_le sh hInc i1 _ hab) (hInc _ _ hbc).1

/-- C9: structural chain invariants.  Across any atomic step from a
reachable configuration, a segment next link is written at most once (only
from null to a pointer, and an installed link never changes), the tail
pointer never regresses, the queue keeps at least one segment with the head
pointer in bounds, and a thread about to link a fresh segment into a segment
whose link is still null is linking at the current tail. -/
theorem chain_structural_invariants (c c2 : Config α)
    (hr : Reachable c) (hs : Step c c2) : ChainStepOK c c2 := by
  have hI : CInv c := CInv_reachable c hr
  have hI2 : CInv c2 := CInv_step c c2 hI hs
  obtain ⟨tid, hT, _⟩ := hs
  obtain ⟨w1, w2, w3⟩ := tstep_chain hT (hI.locals tid) hI.nextInc
  refine ⟨w1, w2, w3, ⟨?_, hI2.headLt⟩, ?_⟩
  · exact Nat.lt_of_le_of_lt (Nat.zero_le _) hI2.headLt
  · intro tid2 a lt nw hts hnone
    have hl : lt < c.sh.segs.length ∧ nw < c.sh.segs.length ∧ lt < nw ∧
        (lt = c.sh.tail ∨ (c.sh.node lt).next ≠ none) := by
      have hloc2 := hI.locals tid2
      rw [hts] at hloc2
      exact hloc2
    rcases hl.2.2.2 with hd | hd
    · exact hd
    · exact absurd hnone hd

/-- Witness for C9: the theorem instantiated at the concrete step in which
thread 0 enters dequeue from the initial configuration. -/
theorem chain_structural_invariants_witness :
    ChainStepOK (Config.init : Config Nat) initDeqLoad := by
  apply chain_structural_invariants Config.init initDeqLoad Relation.ReflTransGen.refl
  refine ⟨0, ?_, ?_⟩
  · exact TStep.start_deq Shared.init
  · intro t ht
    show (if t = 0 then TState.deqLoad else TState.idle) = TState.idle
    rw [if_neg ht]

/-- C10: in every reachable configuration, no slot of a segment strictly
after the head pointer holds the Taken sentinel; the sentinel is only ever
written into a segment at or before the head, which is what makes the
destructor walk of the segments after head sound. -/
theorem no_taken_beyond_head (c : Config α) (hr : Reachable c) :
    NoTakenAfterHead c.sh := by
  have hI : CInv c := CInv_reachable c hr
  intro i hafter j htk
  have h2 : ReachLink c.sh c.sh.head i ∧ i ≠ c.sh.head := hafter
  have hlt : c.sh.head < i :=
    reachLink_lt c.sh hI.nextInc c.sh.head i h2.1 (fun hx => h2.2 hx.symm)
  have hle : i ≤ c.sh.head := hI.takenBound i j htk
  omega

/-- Witness for C10: the theorem instantiated at the initial configuration,
which is reachable by the empty sequence of steps. -/
theorem no_taken_beyond_head_witness : NoTakenAfterHead (Config.init : Config Nat).sh :=
  no_taken_beyond_head Config.init Relation.ReflTransGen.refl

end FAAA
